import Mathlib

/-!
# Shallow embedding of `jsonpath-python`

This file embeds the single source file `src/jsonpath/__init__.py` of the
`jsonpath-python` package (class `JSONPath`) and proves properties of it.

Modelling conventions:

* Python strings are modelled as `List Char`; documents as the inductive
  `JVal` (JSON values: `None`, booleans, numbers, strings, lists, dicts).
  Numeric scalars are modelled as integers (every number appearing in the
  verified claims is an integer).
* The regex-based substitution passes of `JSONPath._parse_expr` are modelled
  as single-pass character automata.  Each automaton is proved-equivalent in
  behaviour to the corresponding non-greedy regex by construction:
  `REP_PICKUP_QUOTE = '(.*?)'` pairs each quote with the next quote,
  `REP_PICKUP_BRACKET = [(.*?)]` pairs each `[` with the next `]`,
  `REP_PUTBACK_QUOTE = #Q(\d+)` / `#B(\d+)` read a maximal digit run, and
  replacement text is never rescanned (matching `re.sub` behaviour).
* Python exceptions are modelled with `Except JErr`.  An exception escaping
  `JSONPath.parse` is an `Except.error` result.
* The recursive evaluator `JSONPath._trace` is modelled by the fuel-indexed
  function `traceF`; `parse` supplies a fuel budget that is proved sufficient
  (claim C9), so the `.fuelOut` branch is unreachable for the budget used.
* Python's `\w` in `REP_SELECT_CONTENT` is modelled for the ASCII range
  (alphanumeric or underscore); documents in all claims are ASCII.
-/

namespace JsonPath

/-- Shorthand: the character list underlying a string literal. -/
def s2l (s : String) : List Char := s.data

/-- ASCII decimal digit test.  Models `str.isdigit` / regex `\d` for the
ASCII strings this program manipulates. -/
def isDig (c : Char) : Bool := decide ('0' ≤ c) && decide (c ≤ '9')

/-- The decimal digit character for `n % 10`. -/
def digitCh (n : Nat) : Char := Char.ofNat (48 + n % 10)

/-- Decimal rendering of a natural number, fuel-indexed so that it is
structurally recursive (the wrapper `natChars` supplies ample fuel). -/
def natCharsAux : Nat → Nat → List Char
  | 0, _ => []
  | fuel + 1, n => if n < 10 then [digitCh n] else natCharsAux fuel (n / 10) ++ [digitCh (n % 10)]

/-- Decimal rendering of a natural number (model of Python `str(n)` /
`f-string` interpolation of a nonnegative int). -/
def natChars (n : Nat) : List Char := natCharsAux (n + 1) n

/-- Numeric value of a decimal digit string (model of Python `int(s)` for a
string of digits; leading zeros allowed). -/
def chToNat (ds : List Char) : Nat := ds.foldl (fun a c => a * 10 + (c.toNat - 48)) 0

/-- Model of Python `s.split(sep)` for a single-character separator:
always returns at least one (possibly empty) part. -/
def splitSep (sep : Char) : List Char → List (List Char)
  | [] => [[]]
  | c :: rest =>
    if c = sep then [] :: splitSep sep rest
    else
      match splitSep sep rest with
      | p :: ps => (c :: p) :: ps
      | [] => [[c]]

/-! ## The expression compiler (`JSONPath._parse_expr`)

The compiler is five regex substitution passes, a root-marker strip, and a
split on the separator `;` (`JSONPath.SEP`).  The quote/bracket escape
tables are the entries `subx["#Q"]` and `subx["#B"]` of the **class-level**
`subx = defaultdict(list)`; they are threaded through the functions below as
explicit state (`tq`, `tb`), so that claims about cross-call state can be
expressed by varying their initial values. -/

/-- Errors that can escape `JSONPath.__init__` / `JSONPath.parse`. -/
inductive JErr where
  /-- Python `IndexError`: a putback placeholder index beyond the table. -/
  | indexError
  /-- Python `TypeError` (e.g. comparing `None` with an int in `list.sort`,
  or a non-list/dict root passed to `parse`). -/
  | typeError
  /-- The package's own `ExprSyntaxError`. -/
  | exprSyntaxError
  /-- Python `ValueError` (slice stride 0, bad result type). -/
  | valueError
  /-- Python `SyntaxError` from `eval` on a malformed slice (e.g. `obj[-:]`). -/
  | pySyntaxErr
  /-- Out of fuel: no Python counterpart; the fuel budget used by `parse`
  is proved sufficient, making this unreachable there. -/
  | fuelOut
deriving DecidableEq, Repr

deriving instance DecidableEq for Except

/-- Scanner state for the pickup passes: outside any literal, or inside one
with the content read so far. -/
inductive ScanSt where
  | out
  | ins (buf : List Char)

/-- Pass 1, `REP_PICKUP_QUOTE.sub(self._f_pickup_quote, expr)`:
replace each non-greedy `'...'` match by `#Q<n>` where `n` is the current
length of the quote table, appending the quoted content to the table
(`JSONPath._f_pickup_quote`).  Non-greedy matching pairs each `'` with the
next `'`, so content never contains a quote; the regex `.` (no `DOTALL`)
never matches a newline, so a would-be literal containing `\n` is left
unshielded — the opening quote and the scanned content (which contain no
further quote) stay verbatim and scanning resumes after the newline; a
final unmatched `'` stays. -/
def pickupQuote (tbl : List (List Char)) (st : ScanSt) : List Char → List Char × List (List Char)
  | [] =>
    match st with
    | .out => ([], tbl)
    | .ins buf => ('\'' :: buf, tbl)
  | c :: rest =>
    match st with
    | .out =>
      if c = '\'' then pickupQuote tbl (.ins []) rest
      else
        let r := pickupQuote tbl .out rest
        (c :: r.1, r.2)
    | .ins buf =>
      if c = '\'' then
        let r := pickupQuote (tbl ++ [buf]) .out rest
        (s2l "#Q" ++ natChars tbl.length ++ r.1, r.2)
      else if c = '\n' then
        let r := pickupQuote tbl .out rest
        ('\'' :: buf ++ '\n' :: r.1, r.2)
      else pickupQuote tbl (.ins (buf ++ [c])) rest

/-- Pass 2, `REP_PICKUP_BRACKET.sub(self._f_pickup_bracket, expr)`:
replace each non-greedy `[...]` match by `.#B<n>` (note the inserted
leading dot, from `JSONPath._f_pickup_bracket`), recording the content.
Non-greedy matching pairs each `[` with the next `]`, so the content may
contain further `[` but no `]`; the regex `.` (no `DOTALL`) never matches
a newline, so a group containing `\n` before any `]` is left unshielded
(no inner `[` of the scanned content can match either, since no `]`
precedes the newline) and scanning resumes after the newline; a final
unmatched `[` stays. -/
def pickupBracket (tbl : List (List Char)) (st : ScanSt) : List Char → List Char × List (List Char)
  | [] =>
    match st with
    | .out => ([], tbl)
    | .ins buf => ('[' :: buf, tbl)
  | c :: rest =>
    match st with
    | .out =>
      if c = '[' then pickupBracket tbl (.ins []) rest
      else
        let r := pickupBracket tbl .out rest
        (c :: r.1, r.2)
    | .ins buf =>
      if c = ']' then
        let r := pickupBracket (tbl ++ [buf]) .out rest
        (s2l ".#B" ++ natChars tbl.length ++ r.1, r.2)
      else if c = '\n' then
        let r := pickupBracket tbl .out rest
        ('[' :: buf ++ '\n' :: r.1, r.2)
      else pickupBracket tbl (.ins (buf ++ [c])) rest

/-- Pass 3, `REP_DOUBLEDOT.sub(";..;", expr)`: each non-overlapping `..`
becomes `;..;`. -/
def subDoubledot : List Char → List Char
  | '.' :: '.' :: rest => ';' :: '.' :: '.' :: ';' :: subDoubledot rest
  | c :: rest => c :: subDoubledot rest
  | [] => []

/-- Pass 4, `REP_DOT.sub(";", expr)` with `REP_DOT = (?<!\.)\.(?!\.)`:
a dot not adjacent to another dot becomes `;`.  `prev` is the previous
character of the input (for the lookbehind). -/
def subDot (prev : Option Char) : List Char → List Char
  | [] => []
  | '.' :: rest =>
    if prev ≠ some '.' ∧ rest.head? ≠ some '.' then ';' :: subDot (some '.') rest
    else '.' :: subDot (some '.') rest
  | c :: rest => c :: subDot (some c) rest

/-- Scanner state for the putback passes. -/
inductive PbSt where
  /-- Plain scanning. -/
  | norm
  /-- Just consumed a `#`. -/
  | hash
  /-- Consumed `#` and the tag letter; collecting the digit run. -/
  | dig (acc : List Char)

/-- Passes 5/6, `REP_PUTBACK_BRACKET.sub` / `REP_PUTBACK_QUOTE.sub`:
replace each `#<tag><digits>` (maximal digit run, at least one digit) by the
table entry at that index; an out-of-range index raises `IndexError`
(Python `self.subx[...][int(m.group(1))]`).  Replacement text is emitted
directly and never rescanned, as with `re.sub`. -/
def putback (tag : Char) (tbl : List (List Char)) : PbSt → List Char → Except JErr (List Char)
  | .norm, [] => .ok []
  | .hash, [] => .ok ['#']
  | .dig acc, [] =>
    if acc = [] then .ok ['#', tag]
    else
      match tbl.get? (chToNat acc) with
      | some s => .ok s
      | none => .error .indexError
  | .norm, c :: rest =>
    if c = '#' then putback tag tbl .hash rest
    else (fun o => c :: o) <$> putback tag tbl .norm rest
  | .hash, c :: rest =>
    if c = tag then putback tag tbl (.dig []) rest
    else if c = '#' then (fun o => '#' :: o) <$> putback tag tbl .hash rest
    else (fun o => '#' :: c :: o) <$> putback tag tbl .norm rest
  | .dig acc, c :: rest =>
    if isDig c then putback tag tbl (.dig (acc ++ [c])) rest
    else if acc = [] then
      -- `#<tag>` not followed by a digit: no match; re-emit it literally and
      -- resume scanning at `c` (which may itself start a `#` match).
      if c = '#' then (fun o => '#' :: tag :: o) <$> putback tag tbl .hash rest
      else (fun o => '#' :: tag :: c :: o) <$> putback tag tbl .norm rest
    else
      match tbl.get? (chToNat acc) with
      | some s =>
        if c = '#' then (fun o => s ++ '#' :: o) <$> putback tag tbl .hash rest
        else (fun o => s ++ c :: o) <$> putback tag tbl .norm rest
      | none => .error .indexError

/-- Step 7 of `_parse_expr`: strip a leading `$;` (root marker). -/
def rootStrip (e : List Char) : List Char :=
  match e with
  | '$' :: ';' :: rest => rest
  | _ => e

/-- `JSONPath._parse_expr` with the escape tables (`subx["#Q"]`, `subx["#B"]`)
threaded explicitly: returns the processed expression string together with
the updated tables. -/
def parseExpr (tq tb : List (List Char)) (e : List Char) :
    Except JErr (List Char × List (List Char) × List (List Char)) := do
  let r1 := pickupQuote tq .out e
  let r2 := pickupBracket tb .out r1.1
  let e3 := subDoubledot r2.1
  let e4 := subDot none e3
  let e5 ← putback 'B' r2.2 .norm e4
  let e6 ← putback 'Q' r1.2 .norm e5
  .ok (rootStrip e6, r1.2, r2.2)

/-- `JSONPath.__init__`: parse the expression and split it on `SEP = ';'`
into the step list `self.segments`.  The initial `tq`/`tb` are the contents
of the class-level `subx` tables at call time (empty in a fresh process). -/
def initSegments (tq tb : List (List Char)) (e : List Char) :
    Except JErr (List (List Char) × List (List Char) × List (List Char)) := do
  let r ← parseExpr tq tb e
  .ok (splitSep ';' r.1, r.2.1, r.2.2)

/-- The compiled step sequence for an expression, in a fresh process
(empty escape tables), discarding the final table state. -/
def compileSteps (e : String) : Except JErr (List (List Char)) :=
  (initSegments [] [] (s2l e)).map (·.1)

example : compileSteps "$[bicycle, scores]" = .ok [s2l "bicycle, scores"] := by decide
example : compileSteps "$..name" = .ok [s2l "..", s2l "name"] := by decide
example : compileSteps "$.a.b" = .ok [s2l "a", s2l "b"] := by decide
example : compileSteps "$['a;b']" = .ok [s2l "a", s2l "b"] := by decide
example : compileSteps "$['a.b']" = .ok [s2l "a.b"] := by decide
example : compileSteps "$(a,b)" = .ok [s2l "$(a,b)"] := by decide
example : compileSteps "$.(a,b)" = .ok [s2l "(a,b)"] := by decide
example : compileSteps "$.#Q0" = .error .indexError := by decide
example : initSegments [s2l "x"] [] (s2l "$.#Q0") = .ok ([s2l "x"], [s2l "x"], []) := by decide

/-! ## The document model

`JVal` mirrors the JSON data model operated on by the evaluator: Python
`None`, `bool`, numbers (modelled as integers: every number in the verified
claims is an integer), `str`, `list` and `dict` (an insertion-ordered list
of string-keyed entries, as Python dicts are). -/

inductive JVal where
  | null
  | bool (b : Bool)
  | num (n : Int)
  | str (s : String)
  | arr (elems : List JVal)
  | obj (entries : List (String × JVal))

mutual
/-- Boolean structural equality on `JVal` (used to derive `DecidableEq`). -/
def JVal.beq : JVal → JVal → Bool
  | .null, .null => true
  | .bool a, .bool b => a = b
  | .num a, .num b => a = b
  | .str a, .str b => a = b
  | .arr a, .arr b => JVal.beqArr a b
  | .obj a, .obj b => JVal.beqObj a b
  | _, _ => false
def JVal.beqArr : List JVal → List JVal → Bool
  | [], [] => true
  | a :: as, b :: bs => JVal.beq a b && JVal.beqArr as bs
  | _, _ => false
def JVal.beqObj : List (String × JVal) → List (String × JVal) → Bool
  | [], [] => true
  | (k, v) :: as, (k', v') :: bs => decide (k = k') && JVal.beq v v' && JVal.beqObj as bs
  | _, _ => false
end

mutual
theorem JVal.beq_iff : ∀ a b : JVal, JVal.beq a b = true ↔ a = b
  | .null, .null => by simp [JVal.beq]
  | .bool _, .bool _ => by simp [JVal.beq]
  | .num _, .num _ => by simp [JVal.beq]
  | .str _, .str _ => by simp [JVal.beq]
  | .arr a, .arr b => by simp [JVal.beq, JVal.beqArr_iff a b]
  | .obj a, .obj b => by simp [JVal.beq, JVal.beqObj_iff a b]
  | .null, .bool _ | .null, .num _ | .null, .str _ | .null, .arr _ | .null, .obj _
  | .bool _, .null | .bool _, .num _ | .bool _, .str _ | .bool _, .arr _ | .bool _, .obj _
  | .num _, .null | .num _, .bool _ | .num _, .str _ | .num _, .arr _ | .num _, .obj _
  | .str _, .null | .str _, .bool _ | .str _, .num _ | .str _, .arr _ | .str _, .obj _
  | .arr _, .null | .arr _, .bool _ | .arr _, .num _ | .arr _, .str _ | .arr _, .obj _
  | .obj _, .null | .obj _, .bool _ | .obj _, .num _ | .obj _, .str _ | .obj _, .arr _ => by
      simp [JVal.beq]
theorem JVal.beqArr_iff : ∀ a b : List JVal, JVal.beqArr a b = true ↔ a = b
  | [], [] => by simp [JVal.beqArr]
  | a :: as, b :: bs => by
      simp [JVal.beqArr, JVal.beq_iff a b, JVal.beqArr_iff as bs]
  | [], _ :: _ => by simp [JVal.beqArr]
  | _ :: _, [] => by simp [JVal.beqArr]
theorem JVal.beqObj_iff : ∀ a b : List (String × JVal), JVal.beqObj a b = true ↔ a = b
  | [], [] => by simp [JVal.beqObj]
  | (k, v) :: as, (k', v') :: bs => by
      simp [JVal.beqObj, JVal.beq_iff v v', JVal.beqObj_iff as bs, and_assoc]
  | [], _ :: _ => by simp [JVal.beqObj]
  | _ :: _, [] => by simp [JVal.beqObj]
end

instance : DecidableEq JVal := fun a b => decidable_of_iff _ (JVal.beq_iff a b)

/-- First-match lookup in a dict's entry list (Python `obj[k]` / `k in obj`;
keys of an actual Python dict are unique, so first-match is exact). -/
def jlookup : List (String × JVal) → String → Option JVal
  | [], _ => none
  | (k', v) :: rest, k => if k' = k then some v else jlookup rest k

/-- Python dict assignment `d[k] = v`: overwrite in place if the key exists
(keeping its position), else append. -/
def dictSet : List (String × JVal) → String → JVal → List (String × JVal)
  | [], k, v => [(k, v)]
  | (k', v') :: rest, k, v =>
    if k' = k then (k', v) :: rest else (k', v') :: dictSet rest k v

/-- The children visited by `JSONPath._traverse`, paired with the path
segment appended for each: indices (rendered in decimal) for a list, keys
for a dict, nothing for scalars. -/
def childrenOf : JVal → List (List Char × JVal)
  | .arr l => l.enum.map (fun p => (natChars p.1, p.2))
  | .obj m => m.map (fun p => (p.1.data, p.2))
  | _ => []

/-- `JSONPath._getattr`'s loop body over the already-split key path:
`r = r.get(k)` succeeds only on dicts (`None` for a missing key); on any
non-dict the `AttributeError` is caught and `None` is returned. -/
def getattrGo : JVal → List (List Char) → JVal
  | r, [] => r
  | .obj m, k :: ks => getattrGo ((jlookup m (String.mk k)).getD .null) ks
  | _, _ :: _ => .null

/-- `JSONPath._getattr(obj, path)`: dotted-path lookup, `None` on failure. -/
def pyGetattr (v : JVal) (fieldPath : List Char) : JVal :=
  getattrGo v (splitSep '.' fieldPath)

mutual
/-- Python `==` on the modelled values (total, never raises).  Note: Python
dict equality is insertion-order-insensitive; this model compares entry
lists in order, which coincides for dicts built in the same key order (no
verified claim compares dicts). -/
def pyEq : JVal → JVal → Bool
  | .null, .null => true
  | .bool a, .bool b => a = b
  | .bool a, .num b => (if a then (1 : Int) else 0) = b
  | .num a, .bool b => a = (if b then (1 : Int) else 0)
  | .num a, .num b => a = b
  | .str a, .str b => a = b
  | .arr a, .arr b => pyEqArr a b
  | .obj a, .obj b => pyEqObj a b
  | _, _ => false
def pyEqArr : List JVal → List JVal → Bool
  | [], [] => true
  | a :: as, b :: bs => pyEq a b && pyEqArr as bs
  | _, _ => false
def pyEqObj : List (String × JVal) → List (String × JVal) → Bool
  | [], [] => true
  | (k, v) :: as, (k', v') :: bs => decide (k = k') && pyEq v v' && pyEqObj as bs
  | _, _ => false
end

mutual
/-- Python `<` on the modelled values, as invoked on sort keys by
`list.sort`: numbers (with `bool` coerced to int) and strings compare;
lists compare lexicographically; any other combination — in particular
`None` against anything — raises `TypeError`. -/
def pyLt : JVal → JVal → Except JErr Bool
  | .num a, .num b => .ok (decide (a < b))
  | .num a, .bool b => .ok (decide (a < if b then 1 else 0))
  | .bool a, .num b => .ok (decide ((if a then (1 : Int) else 0) < b))
  | .bool a, .bool b => .ok (decide ((if a then (1 : Int) else 0) < if b then 1 else 0))
  | .str a, .str b => .ok (decide (a < b))
  | .arr a, .arr b => pyLtArr a b
  | _, _ => .error .typeError
def pyLtArr : List JVal → List JVal → Except JErr Bool
  | [], [] => .ok false
  | [], _ :: _ => .ok true
  | _ :: _, [] => .ok false
  | a :: as, b :: bs => if pyEq a b then pyLtArr as bs else pyLt a b
end

/-! ## Sorting (`JSONPath._sorter`)

Python `list.sort(key=...)` is a stable ascending sort whose comparisons
are `key(x) < key(y)`; `reverse=True` is implemented in CPython by
reversing the list before and after an ascending stable sort.  The model
uses a stable insertion sort in the `Except` monad: on key sets where every
performed comparison succeeds it computes the unique stable result, and a
`TypeError` raised by a key comparison propagates, as in Python. -/

/-- Stable insert: place `x` after every `y` with `key y < key x` and
before the first `y` with `¬(key y < key x)` (so equal keys keep original
order, matching Python's stability). -/
def insertM (lt : α → α → Except JErr Bool) (x : α) : List α → Except JErr (List α)
  | [] => .ok [x]
  | y :: ys => do
    let b ← lt y x
    if b then (fun l => y :: l) <$> insertM lt x ys
    else .ok (x :: y :: ys)

/-- Stable insertion sort in the `Except` monad. -/
def isortM (lt : α → α → Except JErr Bool) : List α → Except JErr (List α)
  | [] => .ok []
  | x :: xs => do insertM lt x (← isortM lt xs)

/-- One `obj.sort(key=..., reverse=...)` call on `(index-or-key, value)`
pairs, comparing by `pyLt` on the extracted keys. -/
def pySortM (keyf : α → JVal) (rev : Bool) (l : List α) : Except JErr (List α) :=
  let lt := fun a b => pyLt (keyf a) (keyf b)
  if rev then List.reverse <$> isortM lt l.reverse else isortM lt l

/-- One iteration of `_sorter`'s loop: sort by one key, descending (with
the `~` stripped) when the key starts with `~`. -/
def sortOne (pairs : List (β × JVal)) (sb : List Char) : Except JErr (List (β × JVal)) :=
  match sb with
  | '~' :: k => pySortM (fun t => pyGetattr t.2 k) true pairs
  | k => pySortM (fun t => pyGetattr t.2 k) false pairs

/-- `JSONPath._sorter(obj, sortbys)`: one stable sort per comma-separated
sort key, applied from the last key to the first (`[::-1]`); a leading `~`
sorts descending on the rest of the key. -/
def sorter (sortbys : List Char) (pairs : List (β × JVal)) : Except JErr (List (β × JVal)) :=
  (splitSep ',' sortbys).reverse.foldlM sortOne pairs

/-! ## Step-syntax tests (the regex guards of `_trace`) -/

/-- Python `step.isdigit()` for the ASCII strings at hand: nonempty, all
decimal digits. -/
def isDigitStr (s : List Char) : Bool := !s.isEmpty && s.all isDig

/-- Regex `\w` (ASCII): alphanumeric or underscore. -/
def isWordChar (c : Char) : Bool := c.isAlphanum || c = '_'

/-- One key token of `REP_SELECT_CONTENT`: nonempty run of `[\w.']`. -/
def isSelTok (s : List Char) : Bool :=
  !s.isEmpty && s.all (fun c => isWordChar c || c = '.' || c = '\'')

/-- A non-first comma-separated part of a select step: the regex `, ?[\w.']+`
allows at most one space after the comma. -/
def selTailOk (p : List Char) : Bool :=
  match p with
  | ' ' :: q => isSelTok q
  | q => isSelTok q

/-- `REP_SELECT_CONTENT.fullmatch(step)`:
`^([\w.']+)(, ?[\w.']+)+$` — at least two comma-separated key tokens. -/
def selMatch (s : List Char) : Bool :=
  match splitSep ',' s with
  | p0 :: p1 :: ps => isSelTok p0 && (p1 :: ps).all selTailOk
  | _ => false

/-- One part of the slice pattern: `-?\d*` (possibly empty, possibly a bare
minus). -/
def negDigOk (p : List Char) : Bool :=
  match p with
  | '-' :: ds => ds.all isDig
  | ds => ds.all isDig

/-- `REP_SLICE_CONTENT.fullmatch(step)`:
`^(-?\d*)?:(-?\d*)?(:-?\d*)?$` — two or three `-?\d*` parts joined by `:`. -/
def sliceMatch (s : List Char) : Bool :=
  match splitSep ':' s with
  | [a, b] => negDigOk a && negDigOk b
  | [a, b, c] => negDigOk a && negDigOk b && negDigOk c
  | _ => false

/-- One textual slice component as understood by `eval(f"obj[{step}]")`:
empty means the default; a bare `-` and a multi-digit numeral with a
leading zero (Python 3 forbids leading zeros in decimal integer literals)
raise `SyntaxError`; otherwise a decimal integer. -/
def slicePart : List Char → Except JErr (Option Int)
  | [] => .ok none
  | ['-'] => .error .pySyntaxErr
  | '-' :: '0' :: _ :: _ => .error .pySyntaxErr
  | '-' :: ds => .ok (some (-(chToNat ds : Int)))
  | '0' :: _ :: _ => .error .pySyntaxErr
  | ds => .ok (some (chToNat ds))

/-- CPython slice semantics (`PySlice_AdjustIndices`): the list of selected
indices for a slice `start:stop:k` of a sequence of length `len`. -/
def sliceIndices (len : Nat) (s0 e0 : Option Int) (k : Int) : List Nat :=
  let n : Int := len
  if k > 0 then
    let start := match s0 with
      | none => 0
      | some s => if s < 0 then max (s + n) 0 else min s n
    let stop := match e0 with
      | none => n
      | some e => if e < 0 then max (e + n) 0 else min e n
    let cnt : Nat := if start < stop then ((stop - start - 1) / k + 1).toNat else 0
    (List.range cnt).map (fun j => (start + j * k).toNat)
  else
    let start := match s0 with
      | none => n - 1
      | some s => if s < 0 then max (s + n) (-1) else min s (n - 1)
    let stop := match e0 with
      | none => -1
      | some e => if e < 0 then max (e + n) (-1) else min e (n - 1)
    let cnt : Nat := if stop < start then ((start - stop - 1) / (-k) + 1).toNat else 0
    (List.range cnt).map (fun j => (start + j * k).toNat)

/-- `eval(f"obj[{step}]")` on a list, for a step accepted by
`REP_SLICE_CONTENT`: parse the two or three components, reject a zero
stride (`ValueError`) or a bare minus (`SyntaxError`), then select. -/
def sliceEval (pairs : List α) (s : List Char) : Except JErr (List α) :=
  match splitSep ':' s with
  | [a, b] => do
    let sa ← slicePart a
    let sb ← slicePart b
    .ok ((sliceIndices pairs.length sa sb 1).filterMap (pairs.get? ·))
  | [a, b, c] => do
    let sa ← slicePart a
    let sb ← slicePart b
    let sc ← slicePart c
    let k := sc.getD 1
    if k = 0 then .error .valueError
    else .ok ((sliceIndices pairs.length sa sb k).filterMap (pairs.get? ·))
  | _ => .error .pySyntaxErr

/-- `step.startswith("?(") and step.endswith(")")`. -/
def filterShape (s : List Char) : Bool :=
  match s with
  | '?' :: '(' :: rest => rest.getLast? = some ')'
  | _ => false

/-- `step.startswith("/(") and step.endswith(")")`. -/
def sorterShape (s : List Char) : Bool :=
  match s with
  | '/' :: '(' :: rest => rest.getLast? = some ')'
  | _ => false

/-- `step.startswith("(") and step.endswith(")")`. -/
def extractShape (s : List Char) : Bool :=
  match s with
  | '(' :: rest => rest.getLast? = some ')'
  | _ => false

/-- `step[2:-1]` for filter and sorter steps. -/
def inner2 (s : List Char) : List Char := (s.drop 2).dropLast

/-- `step[1:-1]` for field-extractor steps. -/
def inner1 (s : List Char) : List Char := (s.drop 1).dropLast

/-- The projected dict built by the field-extractor branch:
`obj_[k] = obj.get(k)` for each listed key. -/
def buildProj (m : List (String × JVal)) (keys : List (List Char)) : List (String × JVal) :=
  keys.foldl (fun acc k => dictSet acc (String.mk k) ((jlookup m (String.mk k)).getD .null)) []

/-! ## The evaluator (`JSONPath._trace`) -/

theorem ok_bind (a : α) (f : α → Except JErr β) :
    (Except.ok a : Except JErr α) >>= f = f a := rfl

theorem error_bind (e : JErr) (f : α → Except JErr β) :
    (Except.error e : Except JErr α) >>= f = Except.error e := rfl

/-- Concatenate per-branch result lists left to right, propagating the
first exception (a Python exception escaping mid-loop aborts the whole
`parse` call). -/
def joinM : List (Except JErr (List α)) → Except JErr (List α)
  | [] => .ok []
  | x :: xs => do
    let a ← x
    let b ← joinM xs
    .ok (a ++ b)

/-- The predicate-evaluation oracle for filter steps: the composition of
the `REP_FILTER_CONTENT` rewriting with Python `eval` of the rewritten
string against one child value.  It is a parameter of the embedding (its
body is host-language `eval`, not code of this repository): it receives the
step content `step[2:-1]` and the child, and returns the truthiness of the
evaluation or the exception it raised.  `JSONPath._filter` catches every
exception and treats the predicate as false. -/
abbrev Pred := List Char → JVal → Except JErr Bool

/-- The result type of one `_trace` call. -/
abbrev TraceRes := Except JErr (List (List Char × JVal))

/-- The type of the recursive callback (a partially applied `_trace`). -/
abbrev TraceRec := JVal → Nat → List Char → TraceRes

/-- The wildcard branch of `_trace`: `self._traverse(self._trace, obj, i+1, path)`. -/
def wildStep (go : TraceRec) (obj : JVal) (i : Nat) (path : List Char) : TraceRes :=
  joinM ((childrenOf obj).map (fun sc => go sc.2 (i + 1) (path ++ ';' :: sc.1)))

/-- The recursive-descent branch of `_trace`: re-trace the current value
with the next step, then every child with the same step. -/
def descendStep (go : TraceRec) (obj : JVal) (i : Nat) (path : List Char) : TraceRes := do
  let a ← go obj (i + 1) path
  let b ← joinM ((childrenOf obj).map (fun sc => go sc.2 i (path ++ ';' :: sc.1)))
  .ok (a ++ b)

/-- The four shape-guarded branches of `_trace` (list index, dict key,
slice, select), in source order; `none` when none of their guards hold. -/
def shapedStep (go : TraceRec) (obj : JVal) (i : Nat) (path : List Char) (step : List Char) :
    Option TraceRes :=
  match obj with
  | .arr l =>
    if isDigitStr step then
      some (if h : chToNat step < l.length then
        go (l.get ⟨chToNat step, h⟩) (i + 1) (path ++ ';' :: step)
      else .ok [])
    else if sliceMatch step then
      some (do
        let pairs ← sliceEval l.enum step
        joinM (pairs.map (fun nv => go nv.2 (i + 1) (path ++ ';' :: natChars nv.1))))
    else none
  | .obj m =>
    match jlookup m (String.mk step) with
    | some v => some (go v (i + 1) (path ++ ';' :: step))
    | none =>
      if selMatch step then
        some (joinM ((splitSep ',' step).map (fun k =>
          match jlookup m (String.mk k) with
          | some v => go v (i + 1) (path ++ ';' :: k)
          | none => .ok [])))
      else none
  | _ => none

/-- The filter branch of `_trace`: per child, evaluate the predicate; an
exception is caught (`r` stays false) and the child is skipped. -/
def filterStep (pred : Pred) (go : TraceRec) (obj : JVal) (i : Nat) (path : List Char)
    (step : List Char) : TraceRes :=
  joinM ((childrenOf obj).map (fun sc =>
    match pred (inner2 step) sc.2 with
    | .ok true => go sc.2 (i + 1) (path ++ ';' :: sc.1)
    | _ => .ok []))

/-- The sorter branch of `_trace`: sort the enumerated pairs (list) or the
items (dict) and recurse in sorted order, keeping the original index/key as
path segment; any other value raises `ExprSyntaxError`. -/
def sorterStep (go : TraceRec) (obj : JVal) (i : Nat) (path : List Char)
    (step : List Char) : TraceRes :=
  match obj with
  | .arr l => do
    let pairs ← sorter (inner2 step) l.enum
    joinM (pairs.map (fun nv => go nv.2 (i + 1) (path ++ ';' :: natChars nv.1)))
  | .obj m => do
    let pairs ← sorter (inner2 step) m
    joinM (pairs.map (fun kv => go kv.2 (i + 1) (path ++ ';' :: kv.1.data)))
  | _ => .error .exprSyntaxError

/-- The field-extractor branch of `_trace`: build the projected dict and
recurse into it with the next step, path unchanged; any non-dict value
raises `ExprSyntaxError`. -/
def extractStep (go : TraceRec) (obj : JVal) (i : Nat) (path : List Char)
    (step : List Char) : TraceRes :=
  match obj with
  | .obj m => go (JVal.obj (buildProj m (splitSep ',' (inner1 step)))) (i + 1) path
  | _ => .error .exprSyntaxError

/-- The dispatch of `_trace` on one step, given the recursive callback
`go`: the guards appear in source order — `*`, `..`, the four
shape-guarded branches (`shapedStep`), filter, sorter, field-extractor,
silent fall-through. -/
def traceStep (pred : Pred) (go : TraceRec) (obj : JVal) (i : Nat) (path step : List Char) :
    TraceRes :=
  if step = s2l "*" then
    wildStep go obj i path
  else if step = s2l ".." then
    descendStep go obj i path
  else
    match shapedStep go obj i path step with
    | some r => r
    | none =>
      if filterShape step then filterStep pred go obj i path step
      else if sorterShape step then sorterStep go obj i path step
      else if extractShape step then extractStep go obj i path step
      else .ok []

/-- `JSONPath._trace(obj, i, path)`, fuel-indexed.  Results are the
`(path, value)` pairs appended at the store point in discovery order;
`self.result_type` is consulted only there, so VALUE and PATH mode are the
two projections of this single traversal.  If `i` is past the last step
(`i >= self.lpath`), store; otherwise dispatch on the step. -/
def traceF (pred : Pred) (segs : List (List Char)) :
    Nat → JVal → Nat → List Char → TraceRes
  | 0, _, _, _ => .error .fuelOut
  | fuel + 1, obj, i, path =>
    match segs.get? i with
    | none => .ok [(path, obj)]
    | some step =>
      traceStep pred (fun v j p => traceF pred segs fuel v j p) obj i path step

/-- One controlled unfolding of `traceF` at positive fuel. -/
theorem traceF_unfold (pred : Pred) (segs : List (List Char)) (fuel : Nat) (obj : JVal)
    (i : Nat) (path : List Char) :
    traceF pred segs (fuel + 1) obj i path =
      match segs.get? i with
      | none => .ok [(path, obj)]
      | some step =>
        traceStep pred (fun v j p => traceF pred segs fuel v j p) obj i path step := rfl

mutual
/-- A computable structural size for documents (used only for the fuel
budget of `parse`; any bound above `jdepth` works). -/
def jsize : JVal → Nat
  | .arr l => 1 + jsizeArr l
  | .obj m => 1 + jsizeObj m
  | _ => 1
def jsizeArr : List JVal → Nat
  | [] => 0
  | v :: vs => 1 + jsize v + jsizeArr vs
def jsizeObj : List (String × JVal) → Nat
  | [] => 0
  | kv :: rest => 1 + jsize kv.2 + jsizeObj rest
end

mutual
/-- The depth of a document tree (scalars have depth 0). -/
def jdepth : JVal → Nat
  | .arr l => 1 + jdepthArr l
  | .obj m => 1 + jdepthObj m
  | _ => 0
def jdepthArr : List JVal → Nat
  | [] => 0
  | v :: vs => max (jdepth v) (jdepthArr vs)
def jdepthObj : List (String × JVal) → Nat
  | [] => 0
  | kv :: rest => max (jdepth kv.2) (jdepthObj rest)
end

/-- `JSONPath.parse(obj, result_type)`: reject a non-list/dict root with
`TypeError`, then run `_trace(obj, 0, "$")`.  The fuel budget
`segs.length + jsize obj + 1` is proved sufficient (the recursion depth of
`_trace` is bounded by the remaining step count plus the document depth,
and `jdepth v ≤ jsize v`), so the `.fuelOut` branch is unreachable here.
The result is the list of `(path, value)` pairs produced at the store
point; `parseVals` and `parsePaths` below are the VALUE / PATH projections
(`result_type` is consulted only at the store point, so both modes share
this single traversal). -/
def parse (pred : Pred) (segs : List (List Char)) (obj : JVal) :
    Except JErr (List (List Char × JVal)) :=
  match obj with
  | .arr _ | .obj _ => traceF pred segs (segs.length + jsize obj + 1) obj 0 ['$']
  | _ => .error .typeError

/-- `JSONPath.parse(obj, "VALUE")`. -/
def parseVals (pred : Pred) (segs : List (List Char)) (obj : JVal) :
    Except JErr (List JVal) :=
  (parse pred segs obj).map (List.map (·.2))

/-- `JSONPath.parse(obj, "PATH")`. -/
def parsePaths (pred : Pred) (segs : List (List Char)) (obj : JVal) :
    Except JErr (List (List Char)) :=
  (parse pred segs obj).map (List.map (·.1))

/-- Compile an expression (in a fresh process) and evaluate it in VALUE
mode, as `JSONPath(expr).parse(obj, "VALUE")` does. -/
def run (pred : Pred) (expr : String) (obj : JVal) : Except JErr (List JVal) := do
  let segs ← compileSteps expr
  parseVals pred segs obj

/-- PATH-mode variant of `run`. -/
def runPaths (pred : Pred) (expr : String) (obj : JVal) : Except JErr (List (List Char)) := do
  let segs ← compileSteps expr
  parsePaths pred segs obj

/-- An inert predicate oracle for expressions without filter steps. -/
def noPred : Pred := fun _ _ => .error .typeError

/-! Sanity checks of the evaluator on concrete documents. -/

/-- The end-to-end example document of the spec:
`{"bicycle": {"color": "red"}, "scores": [1, 2, 3]}`. -/
def docC1 : JVal :=
  .obj [("bicycle", .obj [("color", .str "red")]),
        ("scores", .arr [.num 1, .num 2, .num 3])]

example :
    run noPred "$[bicycle, scores]" docC1 = .ok [.obj [("color", .str "red")]] := by decide

example :
    run noPred "$[bicycle,scores]" docC1 =
      .ok [.obj [("color", .str "red")], .arr [.num 1, .num 2, .num 3]] := by decide

example :
    run noPred "$(a,b)" (.obj [("a", .num 1), ("c", .num 3)]) = .ok [] := by decide

example :
    run noPred "$.(a,b)" (.obj [("a", .num 1), ("c", .num 3)]) =
      .ok [.obj [("a", .num 1), ("b", .null)]] := by decide

example :
    runPaths noPred "$.(a,b)" (.obj [("a", .num 1), ("c", .num 3)]) = .ok [s2l "$"] := by decide

example :
    run noPred "$[1:3]" (.arr [.num 10, .num 20, .num 30, .num 40]) =
      .ok [.num 20, .num 30] := by decide

example :
    run noPred "$[:-1]" (.arr [.num 10, .num 20, .num 30, .num 40]) =
      .ok [.num 10, .num 20, .num 30] := by decide

example :
    run noPred "$[::-1]" (.arr [.num 10, .num 20]) = .ok [.num 20, .num 10] := by decide

/-- A slice bound with a leading zero is a Python `SyntaxError` escaping
`eval` (leading zeros are not permitted in Python 3 integer literals). -/
example :
    run noPred "$[01:]" (.arr [.num 10, .num 20]) = .error .pySyntaxErr := by decide

example :
    run noPred "$..name" (.obj [("name", .str "n0"), ("kid", .obj [("name", .str "n1")])]) =
      .ok [.str "n0", .str "n1"] := by decide

-- negative index: silently no result
example : run noPred "$.-1" (.arr [.num 10, .num 20]) = .ok [] := by decide

-- sorter with a missing field raises TypeError (None key compared to int)
example :
    run noPred "$./(a)" (.arr [.obj [("a", .num 1)], .obj [("b", .num 2)]]) =
      .error .typeError := by decide

-- sorter, two keys with a descending one: first listed key dominates
example :
    run noPred "$./(a,~b)"
      (.arr [.obj [("a", .num 2), ("b", .num 1)],
             .obj [("a", .num 1), ("b", .num 1)],
             .obj [("a", .num 1), ("b", .num 3)]]) =
      .ok [.obj [("a", .num 1), ("b", .num 3)],
           .obj [("a", .num 1), ("b", .num 1)],
           .obj [("a", .num 2), ("b", .num 1)]] := by decide

-- sorter on a singleton dict: no comparison performed, no error
example : run noPred "$./(a)" (.obj [("x", .num 1)]) = .ok [.num 1] := by decide

-- sorter on a scalar raises ExprSyntaxError
example :
    run noPred "$.x./(a)" (.obj [("x", .num 1)]) = .error .exprSyntaxError := by decide

-- filter: erroring predicate excludes the child, no exception (filter
-- steps are written inside brackets, which shield the predicate's dots
-- from the dot-splitting pass)
example :
    run (fun _ v => match v with
          | .obj m => match jlookup m "missing" with
            | some (.num n) => .ok (decide (n > 5))
            | _ => .error .typeError
          | _ => .error .typeError)
      "$[?(@.missing > 5)]"
      (.arr [.obj [("a", .num 1)], .obj [("missing", .num 10)]]) =
      .ok [.obj [("missing", .num 10)]] := by decide

/-! ## Helper lemmas -/

theorem splitSep_eq_single (sep : Char) (s : List Char) (h : sep ∉ s) :
    splitSep sep s = [s] := by
  induction s with
  | nil => rfl
  | cons c rest ih =>
    simp only [List.mem_cons, not_or] at h
    have hcs : ¬c = sep := fun hc => h.1 hc.symm
    simp only [splitSep, if_neg hcs, ih h.2]

theorem isDigitStr_neg (ds : List Char) : isDigitStr ('-' :: ds) = false := by
  simp [isDigitStr, List.all_cons, isDig]

theorem sliceMatch_of_no_colon (s : List Char) (h : ':' ∉ s) : sliceMatch s = false := by
  unfold sliceMatch
  rw [splitSep_eq_single _ _ h]

/-! ## Claim C1 -/

/-- C1: evaluating `$[bicycle, scores]` (VALUE mode) against
`{"bicycle": {"color": "red"}, "scores": [1, 2, 3]}` does NOT return the
two claimed results: the select step is split on bare commas, the second
listed key keeps its leading space (`" scores"`), is not found in the
mapping and is silently dropped, so only `{"color": "red"}` is returned.
The space-free expression `$[bicycle,scores]` returns both values, in key
order, showing the select machinery itself fans out as described (and the
select regex `, ?` explicitly admits the space that the lookup then fails
on). -/
theorem select_space_key_dropped :
    run noPred "$[bicycle, scores]" docC1 = .ok [.obj [("color", .str "red")]] ∧
    run noPred "$[bicycle, scores]" docC1 ≠
      .ok [.obj [("color", .str "red")], .arr [.num 1, .num 2, .num 3]] ∧
    run noPred "$[bicycle,scores]" docC1 =
      .ok [.obj [("color", .str "red")], .arr [.num 1, .num 2, .num 3]] := by
  refine ⟨by decide, by decide, by decide⟩

/-! ## Claim C4 -/

/-- C4 (counterexample): `$(a,b)` on `{"a": 1, "c": 3}` yields NO result at
all (not the claimed one-element projection): without a dot after `$` the
compiled step is the whole string `$(a,b)`, which starts with `$`, matches
no step kind, and falls through silently. -/
theorem extractor_undotted_counterexample :
    run noPred "$(a,b)" (.obj [("a", .num 1), ("c", .num 3)]) = .ok [] ∧
    run noPred "$(a,b)" (.obj [("a", .num 1), ("c", .num 3)]) ≠
      .ok [.obj [("a", .num 1), ("b", .null)]] := by
  refine ⟨by decide, by decide⟩

/-- C4 (amended): written with the dot — `$.(a,b)` — the field-extractor
step on `{"a": 1, "c": 3}` yields exactly one VALUE result, the new
mapping `{"a": 1, "b": null}` (missing key mapped to null), and does not
extend the traversal path: the PATH result is just `$`. -/
theorem extractor_dotted :
    run noPred "$.(a,b)" (.obj [("a", .num 1), ("c", .num 3)]) =
      .ok [.obj [("a", .num 1), ("b", .null)]] ∧
    runPaths noPred "$.(a,b)" (.obj [("a", .num 1), ("c", .num 3)]) = .ok [s2l "$"] := by
  refine ⟨by decide, by decide⟩

/-! ## Claim C10 -/

/-- C10: on a list value, a step consisting of a minus sign followed by
digits (e.g. `-1`) matches neither the integer-index guard (`isdigit`
fails on the minus) nor the slice guard (no colon present) nor any other
step kind, so the evaluator silently yields no result down that branch and
raises no error. -/
theorem negative_index_silent (pred : Pred) (segs : List (List Char)) (fuel : Nat)
    (l : List JVal) (i : Nat) (path : List Char) (ds : List Char)
    (hstep : segs.get? i = some ('-' :: ds)) (_hne : ds ≠ []) (hds : ds.all isDig = true) :
    traceF pred segs (fuel + 1) (.arr l) i path = .ok [] := by
  have hstar : ('-' :: ds) ≠ s2l "*" := by
    intro h
    simp only [s2l] at h
    cases h
  have hdd : ('-' :: ds) ≠ s2l ".." := by
    intro h
    simp only [s2l] at h
    cases h
  have hnocolon : ':' ∉ ('-' :: ds) := by
    intro h
    rcases List.mem_cons.mp h with h | h
    · cases h
    · have := List.all_eq_true.mp hds _ h
      simp [isDig] at this
  have hfilter : filterShape ('-' :: ds) = false := rfl
  have hsorter : sorterShape ('-' :: ds) = false := rfl
  have hextract : extractShape ('-' :: ds) = false := by
    simp [extractShape]
  simp only [traceF, traceStep, hstep, if_neg hstar, if_neg hdd, shapedStep, isDigitStr_neg,
    sliceMatch_of_no_colon _ hnocolon, Bool.false_eq_true, if_false,
    hfilter, hsorter, hextract]

/-- C10 (witness): the hypotheses of `negative_index_silent` hold at the
step `-1` on the list `[null]`. -/
theorem negative_index_silent_witness :
    [s2l "-1"].get? 0 = some ('-' :: ['1']) ∧ (['1'] : List Char) ≠ [] ∧
      ['1'].all isDig = true ∧
      traceF noPred [s2l "-1"] (0 + 1) (.arr [.null]) 0 (s2l "$") = .ok [] :=
  ⟨by decide, by decide, by decide,
    negative_index_silent noPred [s2l "-1"] 0 [.null] 0 (s2l "$") ['1']
      (by decide) (by decide) (by decide)⟩

/-! ## Claim C6 -/

/-- The oracle obtained by catching every predicate-evaluation exception
and treating it as false — the policy `JSONPath._filter` implements with
its `try`/`except`. -/
def catchPred (pred : Pred) : Pred := fun s v =>
  match pred s v with
  | .error _ => .ok false
  | r => r

theorem filterStep_catch (pred : Pred) (go : TraceRec) (obj : JVal) (i : Nat)
    (path step : List Char) :
    filterStep pred go obj i path step = filterStep (catchPred pred) go obj i path step := by
  unfold filterStep
  refine congrArg joinM (List.map_congr_left ?_)
  intro sc _
  unfold catchPred
  cases hp : pred (inner2 step) sc.2 with
  | error e => simp [hp]
  | ok b => cases b <;> simp [hp]

/-- C6: filter steps fail open.  Evaluation with any predicate oracle
`pred` — whose errors model the exceptions Python `eval` raises, e.g. the
`KeyError` of `?(@.missing > 5)` on a child without that field — returns
exactly the same result as evaluation with the oracle that catches every
error and returns false: predicate exceptions never propagate out of
`_filter` (so `parse` does not raise because of them), the failing
predicate counts as false, and that child is silently excluded. -/
theorem filter_fail_open (pred : Pred) (segs : List (List Char)) :
    ∀ fuel obj i path,
      traceF pred segs fuel obj i path = traceF (catchPred pred) segs fuel obj i path := by
  intro fuel
  induction fuel with
  | zero => intro obj i path; rfl
  | succ fuel ih =>
    intro obj i path
    have hgo : (fun v j p => traceF pred segs fuel v j p)
        = (fun v j p => traceF (catchPred pred) segs fuel v j p) := by
      funext v j p
      exact ih v j p
    rw [traceF_unfold pred segs fuel, traceF_unfold (catchPred pred) segs fuel, hgo]
    cases segs.get? i with
    | none => rfl
    | some step =>
      show traceStep pred (fun v j p => traceF (catchPred pred) segs fuel v j p) obj i path step =
        traceStep (catchPred pred) (fun v j p => traceF (catchPred pred) segs fuel v j p)
          obj i path step
      unfold traceStep
      simp only [filterStep_catch pred]

/-! ## Claim C8 -/

theorem negDigOk_head_false (c : Char) (p : List Char) (hc1 : isDig c = false)
    (hc2 : c ≠ '-') : negDigOk (c :: p) = false := by
  unfold negDigOk
  split
  · next ds heq =>
    cases heq
    exact absurd rfl hc2
  · simp [List.all_cons, hc1]

theorem sliceMatch_head_bad (c : Char) (s : List Char) (hc1 : isDig c = false)
    (hc2 : c ≠ '-') (hc3 : c ≠ ':') : sliceMatch (c :: s) = false := by
  have hsp : splitSep ':' (c :: s) =
      match splitSep ':' s with
      | p :: ps => (c :: p) :: ps
      | [] => [[c]] := by
    simp [splitSep, hc3]
  unfold sliceMatch
  rw [hsp]
  cases h : splitSep ':' s with
  | nil => rfl
  | cons p ps =>
    cases ps with
    | nil => rfl
    | cons q qs =>
      cases qs with
      | nil => simp [negDigOk_head_false c p hc1 hc2]
      | cons r rs =>
        cases rs with
        | nil => simp [negDigOk_head_false c p hc1 hc2]
        | cons u us => rfl

theorem inner2_wrap (c₀ c₁ : Char) (sb : List Char) :
    inner2 (c₀ :: c₁ :: sb ++ [')']) = sb := by
  simp [inner2, List.dropLast_concat]

/-- C8 (counterexample): a sorter step whose sort field is missing from
one element does make evaluation fail: `$./(a)` on
`[{"a": 1}, {"b": 2}]` raises `TypeError` (the missing field's key is
`None`, and Python 3 refuses to order `None` against an int), rather than
sorting with null placed consistently. -/
theorem sorter_missing_field_counterexample :
    run noPred "$./(a)" (.arr [.obj [("a", .num 1)], .obj [("b", .num 2)]]) =
      .error .typeError := by decide

theorem sortOne_not_tilde (pairs : List (β × JVal)) (sb : List Char)
    (h : sb.head? ≠ some '~') :
    sortOne pairs sb = pySortM (fun t => pyGetattr t.2 sb) false pairs := by
  cases sb with
  | nil => rfl
  | cons c k =>
    by_cases hc : c = '~'
    · subst hc
      exact absurd rfl h
    · unfold sortOne
      split
      · next k' heq =>
        injection heq with h1 _
        exact absurd h1 hc
      · rfl

theorem isort_pair_fail (lt : α → α → Except JErr Bool) (x y : α)
    (h : lt y x = .error .typeError) :
    isortM lt [x, y] = .error .typeError := by
  have hrw : isortM lt [x, y] =
      (lt y x).bind (fun b => if b then (fun l => y :: l) <$> insertM lt x [] else .ok [x, y]) :=
    rfl
  rw [hrw, h]
  rfl

/-- C8 (amended): for a sorter step `/(k)` (single key, no `~`) over a
two-element list where one element has an integer value at the sort field
and the other lacks it (dotted lookup gives null), evaluation does not
treat null as ordered: the first key comparison raises `TypeError`, which
propagates out of the evaluator, and no element is traversed. -/
theorem sorter_missing_field_raises (pred : Pred) (segs : List (List Char)) (fuel i : Nat)
    (path : List Char) (sb : List Char) (a b : JVal) (z : Int)
    (hstep : segs.get? i = some ('/' :: '(' :: sb ++ [')']))
    (hcomma : ',' ∉ sb) (htilde : sb.head? ≠ some '~')
    (ha : pyGetattr a sb = .num z) (hb : pyGetattr b sb = .null) :
    traceF pred segs (fuel + 1) (.arr [a, b]) i path = .error .typeError := by
  have hstar : ('/' :: '(' :: sb ++ [')']) ≠ s2l "*" := by
    intro h
    simp only [s2l] at h
    cases h
  have hdd : ('/' :: '(' :: sb ++ [')']) ≠ s2l ".." := by
    intro h
    simp only [s2l] at h
    cases h
  have hdig : isDigitStr ('/' :: '(' :: sb ++ [')']) = false := by
    simp [isDigitStr, List.all_cons, isDig]
  have hslice : sliceMatch ('/' :: '(' :: sb ++ [')']) = false :=
    sliceMatch_head_bad _ _ (by simp [isDig]) (by decide) (by decide)
  have hfilter : filterShape ('/' :: '(' :: sb ++ [')']) = false := rfl
  have hsorter : sorterShape ('/' :: '(' :: sb ++ [')']) = true := by
    simp [sorterShape, List.getLast?_concat]
  have hone : sortOne [(0, a), (1, b)] sb = (.error .typeError : Except JErr (List (Nat × JVal))) := by
    rw [sortOne_not_tilde _ _ htilde]
    have hps : pySortM (fun t : Nat × JVal => pyGetattr t.2 sb) false [(0, a), (1, b)] =
        isortM (fun p q : Nat × JVal => pyLt (pyGetattr p.2 sb) (pyGetattr q.2 sb))
          [(0, a), (1, b)] := rfl
    rw [hps]
    apply isort_pair_fail
    show pyLt (pyGetattr b sb) (pyGetattr a sb) = .error .typeError
    rw [hb, ha]
    simp [pyLt]
  have hsortfail : sorter sb [(0, a), (1, b)] =
      (.error .typeError : Except JErr (List (Nat × JVal))) := by
    unfold sorter
    rw [splitSep_eq_single _ _ hcomma]
    simp only [List.reverse_singleton, List.foldlM, hone]
    rfl
  simp only [traceF, traceStep, hstep, if_neg hstar, if_neg hdd, shapedStep, hdig, hslice,
    Bool.false_eq_true, if_false, hfilter, hsorter, if_true, sorterStep, inner2_wrap]
  rw [show ([a, b].enum : List (Nat × JVal)) = [(0, a), (1, b)] from rfl, hsortfail]
  rfl

/-- C8 (witness): the hypotheses of `sorter_missing_field_raises` hold for
the step `/(a)` on `[{"a": 1}, {"b": 2}]`. -/
theorem sorter_missing_field_raises_witness :
    [s2l "/(a)"].get? 0 = some ('/' :: '(' :: ['a'] ++ [')']) ∧
      ',' ∉ (['a'] : List Char) ∧ (['a'] : List Char).head? ≠ some '~' ∧
      pyGetattr (.obj [("a", .num 1)]) ['a'] = .num 1 ∧
      pyGetattr (.obj [("b", .num 2)]) ['a'] = .null ∧
      traceF noPred [s2l "/(a)"] (0 + 1)
        (.arr [.obj [("a", .num 1)], .obj [("b", .num 2)]]) 0 (s2l "$") =
        .error .typeError :=
  ⟨by decide, by decide, by decide, by decide, by decide,
    sorter_missing_field_raises noPred [s2l "/(a)"] 0 0 (s2l "$") ['a']
      (.obj [("a", .num 1)]) (.obj [("b", .num 2)]) 1
      (by decide) (by decide) (by decide) (by decide) (by decide)⟩

/-! ## Decimal rendering facts (for placeholder indices) -/

theorem isDig_digitCh (n : Nat) : isDig (digitCh n) = true := by
  have h : n % 10 < 10 := Nat.mod_lt _ (by norm_num)
  unfold digitCh
  set m := n % 10 with hm
  interval_cases m <;> decide

theorem digitCh_toNat (n : Nat) : (digitCh n).toNat = 48 + n % 10 := by
  have h : n % 10 < 10 := Nat.mod_lt _ (by norm_num)
  unfold digitCh
  set m := n % 10 with hm
  interval_cases m <;> decide

theorem chToNat_concat (l : List Char) (d : Char) :
    chToNat (l ++ [d]) = chToNat l * 10 + (d.toNat - 48) := by
  simp [chToNat, List.foldl_append]

theorem natCharsAux_spec :
    ∀ f n, n < f →
      (natCharsAux f n).all isDig = true ∧ natCharsAux f n ≠ [] ∧
        chToNat (natCharsAux f n) = n := by
  intro f
  induction f with
  | zero => intro n h; omega
  | succ f ih =>
    intro n h
    by_cases h10 : n < 10
    · refine ⟨?_, ?_, ?_⟩ <;> simp only [natCharsAux, if_pos h10]
      · simp [isDig_digitCh]
      · simp
      · simp only [chToNat, List.foldl_cons, List.foldl_nil, digitCh_toNat]
        omega
    · have hn0 : 0 < n := by omega
      have hdiv : n / 10 < f := by
        have h1 : n / 10 < n := Nat.div_lt_self hn0 (by norm_num)
        omega
      obtain ⟨hall, hne, hval⟩ := ih (n / 10) hdiv
      refine ⟨?_, ?_, ?_⟩ <;> simp only [natCharsAux, if_neg h10]
      · simp [List.all_append, hall, isDig_digitCh]
      · simp
      · rw [chToNat_concat, hval, digitCh_toNat]
        omega

theorem natChars_all_digit (n : Nat) : (natChars n).all isDig = true :=
  (natCharsAux_spec (n + 1) n (by omega)).1

theorem natChars_ne_nil (n : Nat) : natChars n ≠ [] :=
  (natCharsAux_spec (n + 1) n (by omega)).2.1

theorem chToNat_natChars (n : Nat) : chToNat (natChars n) = n :=
  (natCharsAux_spec (n + 1) n (by omega)).2.2

theorem isDig_ne (c x : Char) (h : isDig c = true) (hx : isDig x = false) : c ≠ x := by
  intro he
  subst he
  rw [h] at hx
  cases hx

theorem natChars_not_mem (n : Nat) (x : Char) (hx : isDig x = false) : x ∉ natChars n := by
  intro hm
  exact isDig_ne x x (List.all_eq_true.mp (natChars_all_digit n) x hm) hx rfl

/-! ## Scanner lemmas: quote pickup -/

theorem pickupQuote_out_cons_ne (tbl : List (List Char)) (c : Char) (s : List Char)
    (hc : c ≠ '\'') :
    pickupQuote tbl .out (c :: s) =
      (c :: (pickupQuote tbl .out s).1, (pickupQuote tbl .out s).2) := by
  simp only [pickupQuote, if_neg hc]

theorem pickupQuote_out_append (tbl : List (List Char)) (pre rest : List Char)
    (hpre : '\'' ∉ pre) :
    pickupQuote tbl .out (pre ++ rest) =
      (pre ++ (pickupQuote tbl .out rest).1, (pickupQuote tbl .out rest).2) := by
  induction pre with
  | nil => simp
  | cons c p ih =>
    simp only [List.mem_cons, not_or] at hpre
    rw [List.cons_append, pickupQuote_out_cons_ne _ _ _ (fun h => hpre.1 h.symm),
      ih hpre.2]
    simp

theorem pickupQuote_out_id (tbl : List (List Char)) (s : List Char) (h : '\'' ∉ s) :
    pickupQuote tbl .out s = (s, tbl) := by
  have := pickupQuote_out_append tbl s [] h
  simpa [pickupQuote] using this

theorem pickupQuote_ins_cons_ne (tbl : List (List Char)) (buf : List Char) (c : Char)
    (s : List Char) (hc : c ≠ '\'') (hn : c ≠ '\n') :
    pickupQuote tbl (.ins buf) (c :: s) = pickupQuote tbl (.ins (buf ++ [c])) s := by
  simp only [pickupQuote, if_neg hc, if_neg hn]

theorem pickupQuote_ins_append (tbl : List (List Char)) :
    ∀ (w buf s : List Char), '\'' ∉ w → '\n' ∉ w →
      pickupQuote tbl (.ins buf) (w ++ s) = pickupQuote tbl (.ins (buf ++ w)) s := by
  intro w
  induction w with
  | nil => intro buf s _ _; simp
  | cons c p ih =>
    intro buf s h hn
    simp only [List.mem_cons, not_or] at h hn
    rw [List.cons_append, pickupQuote_ins_cons_ne _ _ _ _ (fun hx => h.1 hx.symm)
      (fun hx => hn.1 hx.symm), ih _ _ h.2 hn.2]
    simp

theorem pickupQuote_ins_close (tbl : List (List Char)) (buf s : List Char) :
    pickupQuote tbl (.ins buf) ('\'' :: s) =
      (s2l "#Q" ++ natChars tbl.length ++ (pickupQuote (tbl ++ [buf]) .out s).1,
        (pickupQuote (tbl ++ [buf]) .out s).2) := by
  simp [pickupQuote]

/-- The quote-pickup pass on a string with exactly one quoted literal. -/
theorem pickupQuote_single (tbl : List (List Char)) (pre w post : List Char)
    (hpre : '\'' ∉ pre) (hw : '\'' ∉ w) (hw2 : '\n' ∉ w) (hpost : '\'' ∉ post) :
    pickupQuote tbl .out (pre ++ '\'' :: (w ++ '\'' :: post)) =
      (pre ++ s2l "#Q" ++ natChars tbl.length ++ post, tbl ++ [w]) := by
  rw [pickupQuote_out_append tbl pre ('\'' :: (w ++ '\'' :: post)) hpre]
  have h1 : pickupQuote tbl .out ('\'' :: (w ++ '\'' :: post)) =
      pickupQuote tbl (.ins []) (w ++ '\'' :: post) := by
    simp [pickupQuote]
  rw [h1, pickupQuote_ins_append _ _ _ _ hw hw2]
  simp only [List.nil_append]
  rw [pickupQuote_ins_close, pickupQuote_out_id _ _ hpost]
  simp [List.append_assoc]

/-! ## Scanner lemmas: bracket pickup -/

theorem pickupBracket_out_cons_ne (tbl : List (List Char)) (c : Char) (s : List Char)
    (hc : c ≠ '[') :
    pickupBracket tbl .out (c :: s) =
      (c :: (pickupBracket tbl .out s).1, (pickupBracket tbl .out s).2) := by
  simp only [pickupBracket, if_neg hc]

theorem pickupBracket_out_append (tbl : List (List Char)) (pre rest : List Char)
    (hpre : '[' ∉ pre) :
    pickupBracket tbl .out (pre ++ rest) =
      (pre ++ (pickupBracket tbl .out rest).1, (pickupBracket tbl .out rest).2) := by
  induction pre with
  | nil => simp
  | cons c p ih =>
    simp only [List.mem_cons, not_or] at hpre
    rw [List.cons_append, pickupBracket_out_cons_ne _ _ _ (fun h => hpre.1 h.symm), ih hpre.2]
    simp

theorem pickupBracket_out_id (tbl : List (List Char)) (s : List Char) (h : '[' ∉ s) :
    pickupBracket tbl .out s = (s, tbl) := by
  have := pickupBracket_out_append tbl s [] h
  simpa [pickupBracket] using this

theorem pickupBracket_ins_cons_ne (tbl : List (List Char)) (buf : List Char) (c : Char)
    (s : List Char) (hc : c ≠ ']') (hn : c ≠ '\n') :
    pickupBracket tbl (.ins buf) (c :: s) = pickupBracket tbl (.ins (buf ++ [c])) s := by
  simp only [pickupBracket, if_neg hc, if_neg hn]

theorem pickupBracket_ins_append (tbl : List (List Char)) :
    ∀ (w buf s : List Char), ']' ∉ w → '\n' ∉ w →
      pickupBracket tbl (.ins buf) (w ++ s) = pickupBracket tbl (.ins (buf ++ w)) s := by
  intro w
  induction w with
  | nil => intro buf s _ _; simp
  | cons c p ih =>
    intro buf s h hn
    simp only [List.mem_cons, not_or] at h hn
    rw [List.cons_append, pickupBracket_ins_cons_ne _ _ _ _ (fun hx => h.1 hx.symm)
      (fun hx => hn.1 hx.symm), ih _ _ h.2 hn.2]
    simp

theorem pickupBracket_ins_close (tbl : List (List Char)) (buf s : List Char) :
    pickupBracket tbl (.ins buf) (']' :: s) =
      (s2l ".#B" ++ natChars tbl.length ++ (pickupBracket (tbl ++ [buf]) .out s).1,
        (pickupBracket (tbl ++ [buf]) .out s).2) := by
  simp [pickupBracket]

/-- The bracket-pickup pass on a string with exactly one bracket group. -/
theorem pickupBracket_single (tbl : List (List Char)) (pre w post : List Char)
    (hpre : '[' ∉ pre) (hw : ']' ∉ w) (hw2 : '\n' ∉ w) (hpost : '[' ∉ post) :
    pickupBracket tbl .out (pre ++ '[' :: (w ++ ']' :: post)) =
      (pre ++ s2l ".#B" ++ natChars tbl.length ++ post, tbl ++ [w]) := by
  rw [pickupBracket_out_append tbl pre ('[' :: (w ++ ']' :: post)) hpre]
  have h1 : pickupBracket tbl .out ('[' :: (w ++ ']' :: post)) =
      pickupBracket tbl (.ins []) (w ++ ']' :: post) := by
    simp [pickupBracket]
  rw [h1, pickupBracket_ins_append _ _ _ _ hw hw2]
  simp only [List.nil_append]
  rw [pickupBracket_ins_close, pickupBracket_out_id _ _ hpost]
  simp [List.append_assoc]

/-! ## Scanner lemmas: dot passes -/

theorem dd_cons_ne (c : Char) (s : List Char) (hc : c ≠ '.') :
    subDoubledot (c :: s) = c :: subDoubledot s := by
  conv_lhs => unfold subDoubledot
  split
  · next r heq =>
    injection heq with h1 _
    exact absurd h1 hc
  · next c' r heq =>
    injection heq with h1 h2
    rw [h1, h2]
  · next heq => cases heq

theorem dd_dot_cons_ne (b : Char) (s : List Char) (hb : b ≠ '.') :
    subDoubledot ('.' :: b :: s) = '.' :: subDoubledot (b :: s) := by
  conv_lhs => unfold subDoubledot
  split
  · next r heq =>
    injection heq with _ h2
    injection h2 with h3 _
    exact absurd h3 hb
  · next c' r heq =>
    injection heq with h1 h2
    rw [← h1, ← h2]
  · next heq => cases heq

theorem dd_no_dot (s : List Char) (h : '.' ∉ s) : subDoubledot s = s := by
  induction s with
  | nil => rfl
  | cons c p ih =>
    simp only [List.mem_cons, not_or] at h
    rw [dd_cons_ne _ _ (fun hx => h.1 hx.symm), ih h.2]

theorem subDot_cons_ne (p : Option Char) (c : Char) (s : List Char) (hc : c ≠ '.') :
    subDot p (c :: s) = c :: subDot (some c) s := by
  conv_lhs => unfold subDot
  split
  · next heq => cases heq
  · next r heq =>
    injection heq with h1 _
    exact absurd h1 hc
  · next c' r heq =>
    injection heq with h1 h2
    rw [← h1, ← h2]

theorem subDot_dot (p : Option Char) (s : List Char) (hp : p ≠ some '.')
    (hs : s.head? ≠ some '.') :
    subDot p ('.' :: s) = ';' :: subDot (some '.') s := by
  have h1 : subDot p ('.' :: s) =
      if p ≠ some '.' ∧ s.head? ≠ some '.' then ';' :: subDot (some '.') s
      else '.' :: subDot (some '.') s := rfl
  rw [h1, if_pos ⟨hp, hs⟩]

theorem subDot_no_dot : ∀ (p : Option Char) (s : List Char), '.' ∉ s → subDot p s = s := by
  intro p s
  induction s generalizing p with
  | nil => intro _; rfl
  | cons c q ih =>
    intro h
    simp only [List.mem_cons, not_or] at h
    rw [subDot_cons_ne _ _ _ (fun hx => h.1 hx.symm), ih _ h.2]

/-! ## Scanner lemmas: putback -/

theorem putback_norm_cons_ne (tag : Char) (tbl : List (List Char)) (c : Char)
    (s : List Char) (hc : c ≠ '#') :
    putback tag tbl .norm (c :: s) = (fun o => c :: o) <$> putback tag tbl .norm s := by
  simp only [putback, if_neg hc]

theorem putback_norm_append (tag : Char) (tbl : List (List Char)) (pre s : List Char)
    (hpre : '#' ∉ pre) :
    putback tag tbl .norm (pre ++ s) = (fun o => pre ++ o) <$> putback tag tbl .norm s := by
  induction pre with
  | nil =>
    cases h : putback tag tbl .norm s <;> simp [h, Except.map]
  | cons c p ih =>
    simp only [List.mem_cons, not_or] at hpre
    rw [List.cons_append, putback_norm_cons_ne _ _ _ _ (fun h => hpre.1 h.symm), ih hpre.2]
    cases h : putback tag tbl .norm s <;> simp [h, Except.map]

theorem putback_norm_id (tag : Char) (tbl : List (List Char)) (s : List Char)
    (h : '#' ∉ s) :
    putback tag tbl .norm s = .ok s := by
  have := putback_norm_append tag tbl s [] h
  simpa [putback] using this

theorem putback_start (tag : Char) (tbl : List (List Char)) (s : List Char) :
    putback tag tbl .norm ('#' :: tag :: s) = putback tag tbl (.dig []) s := by
  have h1 : putback tag tbl .norm ('#' :: tag :: s) = putback tag tbl .hash (tag :: s) := by
    simp [putback]
  rw [h1]
  simp [putback]

theorem putback_dig_cons_digit (tag : Char) (tbl : List (List Char)) (acc : List Char)
    (d : Char) (s : List Char) (hd : isDig d = true) :
    putback tag tbl (.dig acc) (d :: s) = putback tag tbl (.dig (acc ++ [d])) s := by
  simp [putback, hd]

theorem putback_dig_append (tag : Char) (tbl : List (List Char)) :
    ∀ (ds acc s : List Char), ds.all isDig = true →
      putback tag tbl (.dig acc) (ds ++ s) = putback tag tbl (.dig (acc ++ ds)) s := by
  intro ds
  induction ds with
  | nil => intro acc s _; simp
  | cons d p ih =>
    intro acc s h
    simp only [List.all_cons, Bool.and_eq_true] at h
    rw [List.cons_append, putback_dig_cons_digit _ _ _ _ _ h.1, ih _ _ h.2]
    simp

theorem putback_dig_end (tag : Char) (tbl : List (List Char)) (acc : List Char)
    (hne : acc ≠ []) :
    putback tag tbl (.dig acc) [] =
      (match tbl.get? (chToNat acc) with
        | some s => .ok s
        | none => .error .indexError) := by
  simp only [putback, if_neg hne]

/-- The putback pass on a string ending in a single placeholder whose index
is in range. -/
theorem putback_single_end (tag : Char) (tbl : List (List Char)) (pre : List Char)
    (n : Nat) (s : List Char) (hpre : '#' ∉ pre) (hs : tbl.get? n = some s) :
    putback tag tbl .norm (pre ++ '#' :: tag :: natChars n) = .ok (pre ++ s) := by
  rw [putback_norm_append _ _ _ _ hpre, putback_start]
  have h1 : putback tag tbl (.dig []) (natChars n) =
      putback tag tbl (.dig ([] ++ natChars n)) [] := by
    conv_lhs => rw [← List.append_nil (natChars n)]
    exact putback_dig_append _ _ _ _ _ (natChars_all_digit n)
  rw [h1]
  simp only [List.nil_append]
  rw [putback_dig_end _ _ _ (natChars_ne_nil n), chToNat_natChars, hs]
  rfl

/-! ## The compilation pipeline on a single shielded literal -/

theorem not_dot_mem_hB (m : Nat) : '.' ∉ '#' :: 'B' :: natChars m := by
  intro hm
  rcases List.mem_cons.mp hm with h | hm
  · cases h
  rcases List.mem_cons.mp hm with h | hm
  · cases h
  exact natChars_not_mem _ _ (by decide) hm

/-- Compiling `$['<w>']` with arbitrary initial escape tables: the quoted
content `w` (no quote, separator, or hash inside) survives verbatim as the
single step, whatever the prior table state; the tables grow by this call's
two literals. -/
theorem compile_quoted_general (tq tb : List (List Char)) (w : List Char)
    (h1 : '\'' ∉ w) (h2 : ';' ∉ w) (hn : '\n' ∉ w) :
    initSegments tq tb (s2l "$['" ++ (w ++ s2l "']")) =
      .ok ([w], tq ++ [w], tb ++ [s2l "#Q" ++ natChars tq.length]) := by
  have e1 : pickupQuote tq .out (s2l "$['" ++ (w ++ s2l "']")) =
      (s2l "$[" ++ s2l "#Q" ++ natChars tq.length ++ s2l "]", tq ++ [w]) :=
    pickupQuote_single tq (s2l "$[") w (s2l "]") (by decide) h1 hn (by decide)
  have hwB : ']' ∉ s2l "#Q" ++ natChars tq.length := by
    intro hm
    rcases List.mem_append.mp hm with hm | hm
    · exact absurd hm (by decide)
    · exact natChars_not_mem _ _ (by decide) hm
  have hwN : '\n' ∉ s2l "#Q" ++ natChars tq.length := by
    intro hm
    rcases List.mem_append.mp hm with hm | hm
    · exact absurd hm (by decide)
    · exact natChars_not_mem _ _ (by decide) hm
  have e2 : pickupBracket tb .out (s2l "$[" ++ s2l "#Q" ++ natChars tq.length ++ s2l "]") =
      ('$' :: '.' :: '#' :: 'B' :: natChars tb.length,
        tb ++ [s2l "#Q" ++ natChars tq.length]) := by
    have h := pickupBracket_single tb (s2l "$") (s2l "#Q" ++ natChars tq.length) []
      (by decide) hwB hwN (by decide)
    rw [List.append_nil] at h
    exact h
  have e3 : subDoubledot ('$' :: '.' :: '#' :: 'B' :: natChars tb.length) =
      '$' :: '.' :: '#' :: 'B' :: natChars tb.length := by
    rw [dd_cons_ne _ _ (by decide), dd_dot_cons_ne _ _ (by decide),
      dd_no_dot _ (not_dot_mem_hB tb.length)]
  have e4 : subDot none ('$' :: '.' :: '#' :: 'B' :: natChars tb.length) =
      '$' :: ';' :: '#' :: 'B' :: natChars tb.length := by
    rw [subDot_cons_ne _ _ _ (by decide), subDot_dot _ _ (by decide) (by simp),
      subDot_no_dot _ _ (not_dot_mem_hB tb.length)]
  have e5 : putback 'B' (tb ++ [s2l "#Q" ++ natChars tq.length]) .norm
      ('$' :: ';' :: '#' :: 'B' :: natChars tb.length) =
      .ok ('$' :: ';' :: '#' :: 'Q' :: natChars tq.length) :=
    putback_single_end 'B' (tb ++ [s2l "#Q" ++ natChars tq.length]) ['$', ';']
      tb.length (s2l "#Q" ++ natChars tq.length) (by decide) (List.get?_concat_length _ _)
  have e6 : putback 'Q' (tq ++ [w]) .norm ('$' :: ';' :: '#' :: 'Q' :: natChars tq.length) =
      .ok ('$' :: ';' :: w) :=
    putback_single_end 'Q' (tq ++ [w]) ['$', ';'] tq.length w (by decide)
      (List.get?_concat_length _ _)
  unfold initSegments parseExpr
  rw [e1]
  simp only []
  rw [e2]
  simp only []
  rw [e3, e4, e5]
  simp only [ok_bind]
  rw [e6]
  simp only [ok_bind]
  have e7 : rootStrip ('$' :: ';' :: w) = w := rfl
  rw [e7, splitSep_eq_single _ _ h2]

/-- Compiling `$[<w>]` with arbitrary initial escape tables: the bracket
content `w` (no quote, closing bracket, separator, or hash inside, dots
allowed) survives verbatim as the single step. -/
theorem compile_bracket_general (tq tb : List (List Char)) (w : List Char)
    (h0 : '\'' ∉ w) (hb : ']' ∉ w) (h2 : ';' ∉ w) (h3 : '#' ∉ w) (hn : '\n' ∉ w) :
    initSegments tq tb (s2l "$[" ++ (w ++ s2l "]")) = .ok ([w], tq, tb ++ [w]) := by
  have e1 : pickupQuote tq .out (s2l "$[" ++ (w ++ s2l "]")) =
      (s2l "$[" ++ (w ++ s2l "]"), tq) := by
    apply pickupQuote_out_id
    intro hm
    rcases List.mem_append.mp hm with hm | hm
    · exact absurd hm (by decide)
    rcases List.mem_append.mp hm with hm | hm
    · exact h0 hm
    · exact absurd hm (by decide)
  have e2 : pickupBracket tb .out (s2l "$[" ++ (w ++ s2l "]")) =
      ('$' :: '.' :: '#' :: 'B' :: natChars tb.length, tb ++ [w]) := by
    have h := pickupBracket_single tb (s2l "$") w [] (by decide) hb hn (by decide)
    rw [List.append_nil] at h
    exact h
  have e3 : subDoubledot ('$' :: '.' :: '#' :: 'B' :: natChars tb.length) =
      '$' :: '.' :: '#' :: 'B' :: natChars tb.length := by
    rw [dd_cons_ne _ _ (by decide), dd_dot_cons_ne _ _ (by decide),
      dd_no_dot _ (not_dot_mem_hB tb.length)]
  have e4 : subDot none ('$' :: '.' :: '#' :: 'B' :: natChars tb.length) =
      '$' :: ';' :: '#' :: 'B' :: natChars tb.length := by
    rw [subDot_cons_ne _ _ _ (by decide), subDot_dot _ _ (by decide) (by simp),
      subDot_no_dot _ _ (not_dot_mem_hB tb.length)]
  have e5 : putback 'B' (tb ++ [w]) .norm ('$' :: ';' :: '#' :: 'B' :: natChars tb.length) =
      .ok ('$' :: ';' :: w) :=
    putback_single_end 'B' (tb ++ [w]) ['$', ';'] tb.length w (by decide)
      (List.get?_concat_length _ _)
  have e6 : putback 'Q' tq .norm ('$' :: ';' :: w) = .ok ('$' :: ';' :: w) := by
    apply putback_norm_id
    intro hm
    rcases List.mem_cons.mp hm with h | hm
    · cases h
    rcases List.mem_cons.mp hm with h | hm
    · cases h
    exact h3 hm
  unfold initSegments parseExpr
  rw [e1]
  simp only []
  rw [e2]
  simp only []
  rw [e3, e4, e5]
  simp only [ok_bind]
  rw [e6]
  simp only [ok_bind]
  have e7 : rootStrip ('$' :: ';' :: w) = w := rfl
  rw [e7, splitSep_eq_single _ _ h2]

/-! ## Claim C3 -/

/-- C3 (counterexample): a quoted literal containing the step separator is
NOT preserved verbatim: the pickup/putback round trip restores `a;b`
*before* the final split on `;`, so `$['a;b']` compiles to the two steps
`a` / `b` and the original content appears in no step. -/
theorem quoted_separator_split_counterexample :
    compileSteps "$['a;b']" = .ok [s2l "a", s2l "b"] ∧
      s2l "a;b" ∉ [s2l "a", s2l "b"] := by
  refine ⟨by decide, by decide⟩

/-- C3 (amended): for quoted literals and bracket groups whose content
contains dots (or any characters other than the step separator `;`, the
quote, `#`, the newline — which the pickup regexes, whose `.` lacks
`DOTALL`, can never shield — and, for bracket groups, `]`), the compiled
step sequence contains the original content verbatim: both `$['<w>']` and
`$[<w>]` compile to the single step `w`, the intermediate dot-splitting
passes never touching the shielded content.  Content containing the
separator is instead split by the final pass (see the counterexample),
and content containing a newline is never shielded at all. -/
theorem literal_roundtrip (w : List Char) (h1 : '\'' ∉ w) (h2 : ';' ∉ w)
    (h3 : '#' ∉ w) (hb : ']' ∉ w) (hn : '\n' ∉ w) :
    (initSegments [] [] (s2l "$['" ++ (w ++ s2l "']"))).map (·.1) = .ok [w] ∧
    (initSegments [] [] (s2l "$[" ++ (w ++ s2l "]"))).map (·.1) = .ok [w] := by
  refine ⟨?_, ?_⟩
  · rw [compile_quoted_general [] [] w h1 h2 hn]
    rfl
  · rw [compile_bracket_general [] [] w h1 hb h2 h3 hn]
    rfl

/-- C3 (witness): the round-trip theorem applied to the dotted literal
`a.b`. -/
theorem literal_roundtrip_witness :
    '\'' ∉ s2l "a.b" ∧ ';' ∉ s2l "a.b" ∧ '#' ∉ s2l "a.b" ∧ ']' ∉ s2l "a.b" ∧
      '\n' ∉ s2l "a.b" ∧
      ((initSegments [] [] (s2l "$['" ++ (s2l "a.b" ++ s2l "']"))).map (·.1) =
          .ok [s2l "a.b"] ∧
        (initSegments [] [] (s2l "$[" ++ (s2l "a.b" ++ s2l "]"))).map (·.1) =
          .ok [s2l "a.b"]) :=
  ⟨by decide, by decide, by decide, by decide, by decide,
    literal_roundtrip (s2l "a.b") (by decide) (by decide) (by decide) (by decide)
      (by decide)⟩

/-- Fidelity check of the newline behavior: the pickup regexes cannot
match across a newline, so `$['a\nb']` and `$[a\nb]` stay unshielded and
compile to the single unprocessed step (no dots, so the dot passes change
nothing). -/
example :
    compileSteps "$['a\nb']" = .ok [s2l "$['a\nb']"] ∧
      compileSteps "$[a\nb]" = .ok [s2l "$[a\nb]"] := by
  refine ⟨by decide, by decide⟩

/-! ## Claim C5 -/

/-- C5 (counterexample): compilation is NOT free of cross-call
interference, and the escape tables are not created fresh per call: they
are the class-level `JSONPath.subx`, threaded here as the initial tables.
Compiling `$.#Q0` in a fresh process raises `IndexError`, while compiling
it after some earlier compilation has recorded a quote literal (table
`["x"]`) silently yields that stale literal as the step. -/
theorem compile_cross_call_counterexample :
    initSegments [] [] (s2l "$.#Q0") = .error .indexError ∧
      initSegments [s2l "x"] [] (s2l "$.#Q0") = .ok ([s2l "x"], [s2l "x"], []) := by
  refine ⟨by decide, by decide⟩

/-- C5 (amended): for expressions that do not themselves contain
placeholder-like text — here the family `$['<w>']` with no quote, `;`,
`#` or newline in `w` (a newline would keep the literal unshielded, since
the pickup regex `.` lacks `DOTALL`) — compilation yields the same step
sequence under every prior table state as in a fresh process, because
fresh placeholder indices are allocated past the existing entries and
resolve to this call's literals. -/
theorem compile_state_independent (tq tb : List (List Char)) (w : List Char)
    (h1 : '\'' ∉ w) (h2 : ';' ∉ w) (hn : '\n' ∉ w) :
    (initSegments tq tb (s2l "$['" ++ (w ++ s2l "']"))).map (·.1) = .ok [w] ∧
    (initSegments [] [] (s2l "$['" ++ (w ++ s2l "']"))).map (·.1) = .ok [w] := by
  refine ⟨?_, ?_⟩
  · rw [compile_quoted_general tq tb w h1 h2 hn]
    rfl
  · rw [compile_quoted_general [] [] w h1 h2 hn]
    rfl

/-- C5 (witness): state-independence of compiling `$['a.b']` under the
prior tables `["stale"]` / `["old"]`. -/
theorem compile_state_independent_witness :
    '\'' ∉ s2l "a.b" ∧ ';' ∉ s2l "a.b" ∧ '\n' ∉ s2l "a.b" ∧
      ((initSegments [s2l "stale"] [s2l "old"] (s2l "$['" ++ (s2l "a.b" ++ s2l "']"))).map
          (·.1) = .ok [s2l "a.b"] ∧
        (initSegments [] [] (s2l "$['" ++ (s2l "a.b" ++ s2l "']"))).map (·.1) =
          .ok [s2l "a.b"]) :=
  ⟨by decide, by decide, by decide,
    compile_state_independent [s2l "stale"] [s2l "old"] (s2l "a.b") (by decide) (by decide)
      (by decide)⟩

/-! ## Depth and membership facts about the evaluator's children -/

theorem jdepthArr_mem (l : List JVal) (v : JVal) (h : v ∈ l) : jdepth v ≤ jdepthArr l := by
  induction l with
  | nil => cases h
  | cons x xs ih =>
    rcases List.mem_cons.mp h with h | h
    · subst h
      simp [jdepthArr]
    · simp only [jdepthArr]
      exact le_trans (ih h) (le_max_right _ _)

theorem jdepthObj_mem (m : List (String × JVal)) (k : String) (v : JVal)
    (h : (k, v) ∈ m) : jdepth v ≤ jdepthObj m := by
  induction m with
  | nil => cases h
  | cons x xs ih =>
    rcases List.mem_cons.mp h with h | h
    · subst h
      simp [jdepthObj]
    · simp only [jdepthObj]
      exact le_trans (ih h) (le_max_right _ _)

theorem enumFrom_get? :
    ∀ (l : List α) (k n : Nat) (v : α), (n, v) ∈ l.enumFrom k →
      k ≤ n ∧ l.get? (n - k) = some v := by
  intro l
  induction l with
  | nil => intro k n v h; cases h
  | cons x xs ih =>
    intro k n v h
    rcases List.mem_cons.mp h with h | h
    · injection h with h1 h2
      subst h1
      subst h2
      simp
    · obtain ⟨hk, hg⟩ := ih (k + 1) n v h
      refine ⟨by omega, ?_⟩
      have hsub : n - k = (n - (k + 1)) + 1 := by omega
      rw [hsub]
      simpa using hg

theorem enum_get? (l : List α) (n : Nat) (v : α) (h : (n, v) ∈ l.enum) :
    l.get? n = some v := by
  have := enumFrom_get? l 0 n v h
  simpa using this.2

theorem enum_snd_mem (l : List α) (n : Nat) (v : α) (h : (n, v) ∈ l.enum) : v ∈ l :=
  List.get?_mem (enum_get? l n v h)

theorem jlookup_mem (m : List (String × JVal)) (k : String) (v : JVal)
    (h : jlookup m k = some v) : (k, v) ∈ m := by
  induction m with
  | nil => cases h
  | cons x xs ih =>
    obtain ⟨k', v'⟩ := x
    unfold jlookup at h
    by_cases hk : k' = k
    · rw [if_pos hk] at h
      injection h with h1
      subst hk
      subst h1
      exact List.mem_cons_self _ _
    · rw [if_neg hk] at h
      exact List.mem_cons_of_mem _ (ih h)

theorem childrenOf_depth (v : JVal) : ∀ sc ∈ childrenOf v, jdepth sc.2 < jdepth v := by
  intro sc hsc
  cases v with
  | arr l =>
    simp only [childrenOf, List.mem_map] at hsc
    obtain ⟨p, hp, hrw⟩ := hsc
    have h1 : jdepth sc.2 ≤ jdepthArr l := by
      rw [← hrw]
      exact jdepthArr_mem l p.2 (enum_snd_mem l p.1 p.2 (by simpa using hp))
    simp only [jdepth]
    omega
  | obj m =>
    simp only [childrenOf, List.mem_map] at hsc
    obtain ⟨p, hp, hrw⟩ := hsc
    have h1 : jdepth sc.2 ≤ jdepthObj m := by
      rw [← hrw]
      exact jdepthObj_mem m p.1 p.2 hp
    simp only [jdepth]
    omega
  | null => cases hsc
  | bool b => cases hsc
  | num n => cases hsc
  | str s => cases hsc

theorem jlookup_depth (m : List (String × JVal)) (k : String) (v : JVal)
    (h : jlookup m k = some v) : jdepth v < jdepth (JVal.obj m) := by
  have h1 : jdepth v ≤ jdepthObj m := jdepthObj_mem m k v (jlookup_mem m k v h)
  simp only [jdepth]
  omega

theorem mem_arr_depth (l : List JVal) (v : JVal) (h : v ∈ l) :
    jdepth v < jdepth (JVal.arr l) := by
  have h1 := jdepthArr_mem l v h
  simp only [jdepth]
  omega

theorem dictSet_values (k : String) (v : JVal) :
    ∀ (m : List (String × JVal)) (kv : String × JVal), kv ∈ dictSet m k v →
      kv ∈ m ∨ kv.2 = v := by
  intro m
  induction m with
  | nil =>
    intro kv h
    rcases List.mem_cons.mp h with h | h
    · right; rw [h]
    · cases h
  | cons x xs ih =>
    intro kv h
    obtain ⟨k', v'⟩ := x
    unfold dictSet at h
    by_cases hk : k' = k
    · rw [if_pos hk] at h
      rcases List.mem_cons.mp h with h | h
      · right; rw [h]
      · left; exact List.mem_cons_of_mem _ h
    · rw [if_neg hk] at h
      rcases List.mem_cons.mp h with h | h
      · left; rw [h]; exact List.mem_cons_self _ _
      · rcases ih kv h with h | h
        · left; exact List.mem_cons_of_mem _ h
        · right; exact h

theorem buildProj_values (m : List (String × JVal)) (keys : List (List Char)) :
    ∀ kv ∈ buildProj m keys, kv.2 = .null ∨ ∃ k', (k', kv.2) ∈ m := by
  unfold buildProj
  suffices h : ∀ (ks : List (List Char)) (acc : List (String × JVal)),
      (∀ kv ∈ acc, kv.2 = JVal.null ∨ ∃ k', (k', kv.2) ∈ m) →
      ∀ kv ∈ ks.foldl
          (fun acc k => dictSet acc (String.mk k) ((jlookup m (String.mk k)).getD .null)) acc,
        kv.2 = JVal.null ∨ ∃ k', (k', kv.2) ∈ m by
    intro kv hkv
    exact h keys [] (by intro kv h; cases h) kv hkv
  intro ks
  induction ks with
  | nil => intro acc hacc kv h; exact hacc kv h
  | cons k rest ih =>
    intro acc hacc kv h
    refine ih _ ?_ kv h
    intro kv' hkv'
    rcases dictSet_values (String.mk k) ((jlookup m (String.mk k)).getD .null) acc kv' hkv'
      with h' | h'
    · exact hacc kv' h'
    · cases hj : jlookup m (String.mk k) with
      | none => left; rw [h', hj]; rfl
      | some v' =>
        right
        refine ⟨String.mk k, ?_⟩
        rw [h', hj]
        exact jlookup_mem _ _ _ hj

theorem jdepthObj_le_of (m : List (String × JVal)) (B : Nat)
    (h : ∀ kv ∈ m, jdepth kv.2 ≤ B) : jdepthObj m ≤ B ⊔ 0 := by
  induction m with
  | nil => simp [jdepthObj]
  | cons x xs ih =>
    simp only [jdepthObj]
    have h1 := h x (List.mem_cons_self _ _)
    have h2 := ih (fun kv hkv => h kv (List.mem_cons_of_mem _ hkv))
    simp only [le_max_iff, max_le_iff] at *
    omega

theorem buildProj_depth (m : List (String × JVal)) (keys : List (List Char)) :
    jdepth (JVal.obj (buildProj m keys)) ≤ jdepth (JVal.obj m) := by
  have h : ∀ kv ∈ buildProj m keys, jdepth kv.2 ≤ jdepthObj m := by
    intro kv hkv
    rcases buildProj_values m keys kv hkv with h | ⟨k', hk'⟩
    · rw [h]
      simp [jdepth]
    · exact jdepthObj_mem m k' kv.2 hk'
  have h2 := jdepthObj_le_of (buildProj m keys) (jdepthObj m) h
  simp only [jdepth]
  simp only [max_eq_left (Nat.zero_le _)] at h2
  omega

/-! ## Permutation facts about the monadic sort -/

theorem insertM_perm (lt : α → α → Except JErr Bool) (x : α) :
    ∀ (l out : List α), insertM lt x l = .ok out → out.Perm (x :: l) := by
  intro l
  induction l with
  | nil =>
    intro out h
    injection h with h1
    rw [← h1]
  | cons y ys ih =>
    intro out h
    unfold insertM at h
    cases hb : lt y x with
    | error e =>
      rw [hb] at h
      cases h
    | ok b =>
      rw [hb] at h
      simp only [ok_bind] at h
      cases b with
      | true =>
        rw [if_pos rfl] at h
        cases hi : insertM lt x ys with
        | error e => rw [hi] at h; cases h
        | ok out' =>
          rw [hi] at h
          injection h with h1
          rw [← h1]
          exact ((ih out' hi).cons y).trans (List.Perm.swap x y ys)
      | false =>
        rw [if_neg (by decide)] at h
        injection h with h1
        rw [← h1]

theorem isortM_perm (lt : α → α → Except JErr Bool) :
    ∀ (l out : List α), isortM lt l = .ok out → out.Perm l := by
  intro l
  induction l with
  | nil =>
    intro out h
    injection h with h1
    rw [← h1]
  | cons x xs ih =>
    intro out h
    unfold isortM at h
    cases hs : isortM lt xs with
    | error e => rw [hs] at h; cases h
    | ok mid =>
      rw [hs] at h
      simp only [ok_bind] at h
      exact (insertM_perm lt x mid out h).trans ((ih mid hs).cons x)

theorem pySortM_perm (keyf : α → JVal) (rev : Bool) (l out : List α)
    (h : pySortM keyf rev l = .ok out) : out.Perm l := by
  unfold pySortM at h
  cases rev with
  | false =>
    rw [if_neg (by decide)] at h
    exact isortM_perm _ l out h
  | true =>
    rw [if_pos rfl] at h
    cases hs : isortM (fun a b => pyLt (keyf a) (keyf b)) l.reverse with
    | error e => rw [hs] at h; cases h
    | ok mid =>
      rw [hs] at h
      injection h with h1
      rw [← h1]
      exact (mid.reverse_perm).trans ((isortM_perm _ _ _ hs).trans l.reverse_perm)

theorem sortOne_perm (pairs out : List (β × JVal)) (sb : List Char)
    (h : sortOne pairs sb = .ok out) : out.Perm pairs := by
  unfold sortOne at h
  split at h
  · exact pySortM_perm _ _ _ _ h
  · exact pySortM_perm _ _ _ _ h

theorem foldl_sortOne_perm :
    ∀ (sbs : List (List Char)) (pairs out : List (β × JVal)),
      List.foldlM sortOne pairs sbs = .ok out → out.Perm pairs := by
  intro sbs
  induction sbs with
  | nil =>
    intro pairs out h
    injection h with h1
    rw [← h1]
  | cons sb rest ih =>
    intro pairs out h
    simp only [List.foldlM] at h
    cases hs : sortOne pairs sb with
    | error e => rw [hs] at h; cases h
    | ok mid =>
      rw [hs] at h
      simp only [ok_bind] at h
      exact (ih mid out h).trans (sortOne_perm pairs mid sb hs)

theorem sorter_perm (sbs : List Char) (pairs out : List (β × JVal))
    (h : sorter sbs pairs = .ok out) : out.Perm pairs :=
  foldl_sortOne_perm _ pairs out h

theorem sorter_mem (sbs : List Char) (pairs out : List (β × JVal))
    (h : sorter sbs pairs = .ok out) : ∀ x ∈ out, x ∈ pairs := by
  intro x hx
  exact (sorter_perm sbs pairs out h).mem_iff.mp hx

/-! ## Membership in slice results -/

theorem sliceEval_subset (pairs : List α) (s : List Char) (out : List α)
    (h : sliceEval pairs s = .ok out) : ∀ x ∈ out, x ∈ pairs := by
  unfold sliceEval at h
  split at h
  · next a b _ =>
    cases ha : slicePart a with
    | error e => rw [ha] at h; cases h
    | ok sa =>
      cases hb : slicePart b with
      | error e => rw [ha, hb] at h; cases h
      | ok sb =>
        rw [ha, hb] at h
        simp only [ok_bind] at h
        injection h with h1
        intro x hx
        rw [← h1] at hx
        obtain ⟨i, _, hget⟩ := List.mem_filterMap.mp hx
        exact List.get?_mem hget
  · next a b c _ =>
    cases ha : slicePart a with
    | error e => rw [ha] at h; cases h
    | ok sa =>
      cases hb : slicePart b with
      | error e => rw [ha, hb] at h; cases h
      | ok sb =>
        cases hc : slicePart c with
        | error e => rw [ha, hb, hc] at h; cases h
        | ok sc =>
          rw [ha, hb, hc] at h
          simp only [ok_bind] at h
          split at h
          · cases h
          · injection h with h1
            intro x hx
            rw [← h1] at hx
            obtain ⟨i, _, hget⟩ := List.mem_filterMap.mp hx
            exact List.get?_mem hget
  · cases h

theorem mem_obj_depth (m : List (String × JVal)) (k : String) (v : JVal)
    (h : (k, v) ∈ m) : jdepth v < jdepth (JVal.obj m) := by
  have h1 := jdepthObj_mem m k v h
  simp only [jdepth]
  omega

/-! ## Congruence of the `_trace` branches in the recursive callback -/

theorem wildStep_congr (go₁ go₂ : TraceRec) (obj : JVal) (i : Nat) (path : List Char)
    (h : ∀ sc ∈ childrenOf obj,
      go₁ sc.2 (i + 1) (path ++ ';' :: sc.1) = go₂ sc.2 (i + 1) (path ++ ';' :: sc.1)) :
    wildStep go₁ obj i path = wildStep go₂ obj i path :=
  congrArg joinM (List.map_congr_left h)

theorem descendStep_congr (go₁ go₂ : TraceRec) (obj : JVal) (i : Nat) (path : List Char)
    (ha : go₁ obj (i + 1) path = go₂ obj (i + 1) path)
    (h : ∀ sc ∈ childrenOf obj,
      go₁ sc.2 i (path ++ ';' :: sc.1) = go₂ sc.2 i (path ++ ';' :: sc.1)) :
    descendStep go₁ obj i path = descendStep go₂ obj i path := by
  unfold descendStep
  rw [ha, List.map_congr_left h]

theorem shapedStep_congr (go₁ go₂ : TraceRec) (obj : JVal) (i : Nat) (path step : List Char)
    (h : ∀ v p, jdepth v < jdepth obj → go₁ v (i + 1) p = go₂ v (i + 1) p) :
    shapedStep go₁ obj i path step = shapedStep go₂ obj i path step := by
  cases obj with
  | arr l =>
    unfold shapedStep
    by_cases hdig : isDigitStr step = true
    · simp only [if_pos hdig]
      congr 1
      by_cases hlt : chToNat step < l.length
      · rw [dif_pos hlt, dif_pos hlt]
        exact h _ _ (mem_arr_depth l _ (List.get_mem l _ _))
      · rw [dif_neg hlt, dif_neg hlt]
    · simp only [if_neg hdig]
      by_cases hsl : sliceMatch step = true
      · simp only [if_pos hsl]
        congr 1
        cases hse : sliceEval l.enum step with
        | error e => simp only [hse, error_bind]
        | ok pairs =>
          simp only [hse, ok_bind]
          refine congrArg joinM (List.map_congr_left ?_)
          intro nv hnv
          have hmem : nv ∈ l.enum := sliceEval_subset _ _ _ hse nv hnv
          exact h _ _ (mem_arr_depth l nv.2 (enum_snd_mem l nv.1 nv.2 (by simpa using hmem)))
      · simp only [if_neg hsl]
  | obj m =>
    unfold shapedStep
    cases hjl : jlookup m (String.mk step) with
    | some v =>
      simp only [hjl]
      exact congrArg some (h _ _ (jlookup_depth _ _ _ hjl))
    | none =>
      simp only [hjl]
      by_cases hsel : selMatch step = true
      · simp only [if_pos hsel]
        refine congrArg some (congrArg joinM (List.map_congr_left ?_))
        intro k hk
        cases hjk : jlookup m (String.mk k) with
        | some v =>
          simp only [hjk]
          exact h _ _ (jlookup_depth _ _ _ hjk)
        | none => simp only [hjk]
      · simp only [if_neg hsel]
  | null => rfl
  | bool b => rfl
  | num n => rfl
  | str s => rfl

theorem filterStep_congr (pred : Pred) (go₁ go₂ : TraceRec) (obj : JVal) (i : Nat)
    (path step : List Char)
    (h : ∀ v p, jdepth v < jdepth obj → go₁ v (i + 1) p = go₂ v (i + 1) p) :
    filterStep pred go₁ obj i path step = filterStep pred go₂ obj i path step := by
  unfold filterStep
  refine congrArg joinM (List.map_congr_left ?_)
  intro sc hsc
  cases hp : pred (inner2 step) sc.2 with
  | error e => rfl
  | ok b =>
    cases b with
    | true => exact h _ _ (childrenOf_depth obj sc hsc)
    | false => rfl

theorem sorterStep_congr (go₁ go₂ : TraceRec) (obj : JVal) (i : Nat) (path step : List Char)
    (h : ∀ v p, jdepth v < jdepth obj → go₁ v (i + 1) p = go₂ v (i + 1) p) :
    sorterStep go₁ obj i path step = sorterStep go₂ obj i path step := by
  cases obj with
  | arr l =>
    unfold sorterStep
    cases hso : sorter (inner2 step) l.enum with
    | error e => simp only [hso, error_bind]
    | ok pairs =>
      simp only [hso, ok_bind]
      refine congrArg joinM (List.map_congr_left ?_)
      intro nv hnv
      have hmem : nv ∈ l.enum := sorter_mem _ _ _ hso nv hnv
      exact h _ _ (mem_arr_depth l nv.2 (enum_snd_mem l nv.1 nv.2 (by simpa using hmem)))
  | obj m =>
    unfold sorterStep
    cases hso : sorter (inner2 step) m with
    | error e => simp only [hso, error_bind]
    | ok pairs =>
      simp only [hso, ok_bind]
      refine congrArg joinM (List.map_congr_left ?_)
      intro kv hkv
      have hmem : kv ∈ m := sorter_mem _ _ _ hso kv hkv
      exact h _ _ (mem_obj_depth m kv.1 kv.2 (by simpa using hmem))
  | null => rfl
  | bool b => rfl
  | num n => rfl
  | str s => rfl

theorem extractStep_congr (go₁ go₂ : TraceRec) (obj : JVal) (i : Nat) (path step : List Char)
    (h : ∀ v p, jdepth v ≤ jdepth obj → go₁ v (i + 1) p = go₂ v (i + 1) p) :
    extractStep go₁ obj i path step = extractStep go₂ obj i path step := by
  cases obj with
  | obj m =>
    unfold extractStep
    exact h _ _ (buildProj_depth m _)
  | arr l => rfl
  | null => rfl
  | bool b => rfl
  | num n => rfl
  | str s => rfl

theorem traceStep_congr (pred : Pred) (go₁ go₂ : TraceRec) (obj : JVal) (i : Nat)
    (path step : List Char)
    (hnext : ∀ v p, jdepth v ≤ jdepth obj → go₁ v (i + 1) p = go₂ v (i + 1) p)
    (hsame : ∀ v p, jdepth v < jdepth obj → go₁ v i p = go₂ v i p) :
    traceStep pred go₁ obj i path step = traceStep pred go₂ obj i path step := by
  have hnextlt : ∀ v p, jdepth v < jdepth obj → go₁ v (i + 1) p = go₂ v (i + 1) p :=
    fun v p hv => hnext v p (le_of_lt hv)
  unfold traceStep
  by_cases h1 : step = s2l "*"
  · rw [if_pos h1, if_pos h1]
    exact wildStep_congr _ _ obj i path
      (fun sc hsc => hnextlt sc.2 _ (childrenOf_depth obj sc hsc))
  rw [if_neg h1, if_neg h1]
  by_cases h2 : step = s2l ".."
  · rw [if_pos h2, if_pos h2]
    exact descendStep_congr _ _ obj i path (hnext obj path le_rfl)
      (fun sc hsc => hsame sc.2 _ (childrenOf_depth obj sc hsc))
  rw [if_neg h2, if_neg h2]
  rw [shapedStep_congr go₁ go₂ obj i path step hnextlt]
  cases shapedStep go₂ obj i path step with
  | some r => rfl
  | none =>
    show (if filterShape step = true then filterStep pred go₁ obj i path step
      else if sorterShape step = true then sorterStep go₁ obj i path step
      else if extractShape step = true then extractStep go₁ obj i path step
      else Except.ok []) =
      (if filterShape step = true then filterStep pred go₂ obj i path step
      else if sorterShape step = true then sorterStep go₂ obj i path step
      else if extractShape step = true then extractStep go₂ obj i path step
      else Except.ok [])
    by_cases h3 : filterShape step = true
    · rw [if_pos h3, if_pos h3]
      exact filterStep_congr pred _ _ obj i path step hnextlt
    rw [if_neg h3, if_neg h3]
    by_cases h4 : sorterShape step = true
    · rw [if_pos h4, if_pos h4]
      exact sorterStep_congr _ _ obj i path step hnextlt
    rw [if_neg h4, if_neg h4]
    by_cases h5 : extractShape step = true
    · rw [if_pos h5, if_pos h5]
      exact extractStep_congr _ _ obj i path step hnext
    rw [if_neg h5, if_neg h5]

/-! ## Fuel sufficiency (claim C9's depth bound) -/

theorem traceF_succ (pred : Pred) (segs : List (List Char)) :
    ∀ g obj i path, segs.length - i + jdepth obj + 1 ≤ g →
      traceF pred segs g obj i path = traceF pred segs (g + 1) obj i path := by
  intro g
  induction g with
  | zero => intro obj i path h; omega
  | succ g ih =>
    intro obj i path hbound
    rw [traceF_unfold pred segs g, traceF_unfold pred segs (g + 1)]
    cases hstep : segs.get? i with
    | none => rfl
    | some step =>
      have hiL : i < segs.length := by
        by_contra hgt
        rw [List.get?_eq_none.mpr (by omega)] at hstep
        cases hstep
      have hnext : ∀ v p, jdepth v ≤ jdepth obj →
          traceF pred segs g v (i + 1) p = traceF pred segs (g + 1) v (i + 1) p := by
        intro v p hv
        exact ih v (i + 1) p (by omega)
      have hsame : ∀ v p, jdepth v < jdepth obj →
          traceF pred segs g v i p = traceF pred segs (g + 1) v i p := by
        intro v p hv
        exact ih v i p (by omega)
      show traceStep pred (fun v j p => traceF pred segs g v j p) obj i path step =
        traceStep pred (fun v j p => traceF pred segs (g + 1) v j p) obj i path step
      exact traceStep_congr pred _ _ obj i path step hnext hsame

/-- Above the `remaining steps + depth + 1` bound, the fuel value is
irrelevant: any two sufficient budgets give the same evaluation.  This is
the depth-bound half of claim C9: the recursion needs no more nesting than
the step count plus the document depth. -/
theorem traceF_fuel_ge (pred : Pred) (segs : List (List Char)) :
    ∀ f obj i path, segs.length - i + jdepth obj + 1 ≤ f →
      traceF pred segs f obj i path =
        traceF pred segs (segs.length - i + jdepth obj + 1) obj i path := by
  intro f
  induction f with
  | zero => intro obj i path h; omega
  | succ f ih =>
    intro obj i path h
    by_cases heq : segs.length - i + jdepth obj + 1 = f + 1
    · rw [heq]
    · have hle : segs.length - i + jdepth obj + 1 ≤ f := by omega
      rw [← traceF_succ pred segs f obj i path hle]
      exact ih obj i path hle

/-! ## Claim C9: recursive descent `$..name` -/

/-- The contribution of one node itself under the step `name`: a mapping
with that key yields its value (path extended by the key); everything else
yields nothing. -/
def ownName (v : JVal) (path : List Char) : List (List Char × JVal) :=
  match v with
  | .obj m =>
    match jlookup m (String.mk (s2l "name")) with
    | some x => [(path ++ ';' :: s2l "name", x)]
    | none => []
  | _ => []

mutual
/-- The preorder collection computed by `$..name`: the node's own `name`
entry, then the collections of its children, in document order. -/
def collectName : JVal → List Char → List (List Char × JVal)
  | .obj m, path => ownName (.obj m) path ++ collectNameObj m path
  | .arr l, path => collectNameArr l path 0
  | _, _ => []
def collectNameArr : List JVal → List Char → Nat → List (List Char × JVal)
  | [], _, _ => []
  | v :: vs, path, n =>
    collectName v (path ++ ';' :: natChars n) ++ collectNameArr vs path (n + 1)
def collectNameObj : List (String × JVal) → List Char → List (List Char × JVal)
  | [], _ => []
  | kv :: rest, path =>
    collectName kv.2 (path ++ ';' :: kv.1.data) ++ collectNameObj rest path
end

theorem collectNameArr_enum (path : List Char) :
    ∀ (l : List JVal) (n : Nat),
      collectNameArr l path n =
        ((l.enumFrom n).map (fun p => collectName p.2 (path ++ ';' :: natChars p.1))).join := by
  intro l
  induction l with
  | nil => intro n; rfl
  | cons v vs ih =>
    intro n
    simp only [collectNameArr, List.enumFrom, List.map_cons, List.join_cons, ih (n + 1)]

theorem collectNameObj_eq (path : List Char) :
    ∀ (m : List (String × JVal)),
      collectNameObj m path =
        (m.map (fun kv => collectName kv.2 (path ++ ';' :: kv.1.data))).join := by
  intro m
  induction m with
  | nil => rfl
  | cons kv rest ih =>
    simp only [collectNameObj, List.map_cons, List.join_cons, ih]

/-- `collectName` in terms of `childrenOf`. -/
theorem collectName_eq (v : JVal) (path : List Char) :
    collectName v path =
      ownName v path ++
        ((childrenOf v).map (fun sc => collectName sc.2 (path ++ ';' :: sc.1))).join := by
  cases v with
  | arr l =>
    show collectNameArr l path 0 = _
    rw [collectNameArr_enum path l 0]
    simp only [ownName, childrenOf, List.map_map, List.nil_append]
    rfl
  | obj m =>
    show ownName (.obj m) path ++ collectNameObj m path = _
    rw [collectNameObj_eq path m]
    simp only [childrenOf, List.map_map]
    rfl
  | null => rfl
  | bool b => rfl
  | num n => rfl
  | str s => rfl

theorem joinM_ok (l : List α) (f : α → Except JErr (List β)) (g : α → List β)
    (h : ∀ x ∈ l, f x = .ok (g x)) : joinM (l.map f) = .ok ((l.map g).join) := by
  induction l with
  | nil => rfl
  | cons x xs ih =>
    simp only [List.map_cons, joinM, h x (List.mem_cons_self _ _), ok_bind,
      ih (fun y hy => h y (List.mem_cons_of_mem _ hy))]
    simp [List.join_cons]

/-- Evaluating the second step (`name`) on one node: exactly the node's
own contribution. -/
theorem traceC9_at1 (pred : Pred) :
    ∀ (f : Nat) (v : JVal) (path : List Char), 2 ≤ f →
      traceF pred [s2l "..", s2l "name"] f v 1 path = .ok (ownName v path) := by
  intro f v path hf
  obtain ⟨f1, rfl⟩ : ∃ f1, f = f1 + 1 := ⟨f - 1, by omega⟩
  rw [traceF_unfold]
  show traceStep pred (fun v j p => traceF pred [s2l "..", s2l "name"] f1 v j p)
    v 1 path (s2l "name") = .ok (ownName v path)
  cases v with
  | arr l => rfl
  | null => rfl
  | bool b => rfl
  | num n => rfl
  | str s => rfl
  | obj m =>
    cases hjl : jlookup m (String.mk (s2l "name")) with
    | some x =>
      simp only [traceStep, shapedStep, hjl]
      rw [if_neg (show ¬s2l "name" = s2l "*" by decide),
        if_neg (show ¬s2l "name" = s2l ".." by decide)]
      obtain ⟨f2, rfl⟩ : ∃ f2, f1 = f2 + 1 := ⟨f1 - 1, by omega⟩
      rw [traceF_unfold]
      show Except.ok [(path ++ ';' :: s2l "name", x)] =
        Except.ok (match jlookup m (String.mk (s2l "name")) with
          | some y => [(path ++ ';' :: s2l "name", y)]
          | none => [])
      rw [hjl]
    | none =>
      simp only [traceStep, shapedStep, hjl]
      rw [if_neg (show ¬s2l "name" = s2l "*" by decide),
        if_neg (show ¬s2l "name" = s2l ".." by decide),
        if_neg (show ¬selMatch (s2l "name") = true by decide)]
      rw [if_neg (show ¬filterShape (s2l "name") = true by decide),
        if_neg (show ¬sorterShape (s2l "name") = true by decide),
        if_neg (show ¬extractShape (s2l "name") = true by decide)]
      show Except.ok [] =
        Except.ok (match jlookup m (String.mk (s2l "name")) with
          | some y => [(path ++ ';' :: s2l "name", y)]
          | none => [])
      rw [hjl]

theorem traceC9_main (pred : Pred) :
    ∀ (d : Nat) (doc : JVal), jdepth doc ≤ d → ∀ (path : List Char) (f : Nat),
      jdepth doc + 3 ≤ f →
      traceF pred [s2l "..", s2l "name"] f doc 0 path = .ok (collectName doc path) := by
  intro d
  induction d with
  | zero =>
    intro doc hd path f hf
    obtain ⟨f1, rfl⟩ : ∃ f1, f = f1 + 1 := ⟨f - 1, by omega⟩
    rw [traceF_unfold]
    show traceStep pred (fun v j p => traceF pred [s2l "..", s2l "name"] f1 v j p)
      doc 0 path (s2l "..") = .ok (collectName doc path)
    unfold traceStep
    rw [if_neg (show ¬s2l ".." = s2l "*" by decide), if_pos rfl]
    simp only [descendStep, Nat.zero_add]
    rw [traceC9_at1 pred f1 doc path (by omega)]
    rw [joinM_ok (childrenOf doc)
      (fun sc => traceF pred [s2l "..", s2l "name"] f1 sc.2 0 (path ++ ';' :: sc.1))
      (fun sc => collectName sc.2 (path ++ ';' :: sc.1))
      (fun sc hsc => absurd (childrenOf_depth doc sc hsc) (by
        cases doc with
        | arr l => simp [jdepth] at hd
        | obj m => simp [jdepth] at hd
        | null => cases hsc
        | bool b => cases hsc
        | num n => cases hsc
        | str s => cases hsc))]
    simp only [ok_bind]
    rw [collectName_eq]
  | succ d ih =>
    intro doc hd path f hf
    obtain ⟨f1, rfl⟩ : ∃ f1, f = f1 + 1 := ⟨f - 1, by omega⟩
    rw [traceF_unfold]
    show traceStep pred (fun v j p => traceF pred [s2l "..", s2l "name"] f1 v j p)
      doc 0 path (s2l "..") = .ok (collectName doc path)
    unfold traceStep
    rw [if_neg (show ¬s2l ".." = s2l "*" by decide), if_pos rfl]
    simp only [descendStep, Nat.zero_add]
    rw [traceC9_at1 pred f1 doc path (by omega)]
    rw [joinM_ok (childrenOf doc)
      (fun sc => traceF pred [s2l "..", s2l "name"] f1 sc.2 0 (path ++ ';' :: sc.1))
      (fun sc => collectName sc.2 (path ++ ';' :: sc.1))
      (fun sc hsc => ih sc.2 (by
          have := childrenOf_depth doc sc hsc
          omega) _ f1 (by
          have := childrenOf_depth doc sc hsc
          omega))]
    simp only [ok_bind]
    rw [collectName_eq]

/-- C9: on every finite document, evaluating the compiled `$..name`
(steps `..`, `name`) terminates with the preorder collection
`collectName doc "$"` — each node contributes its `name` entry exactly
once, in depth-first document order — and any fuel of at least
`step count (2) + document depth + 1` suffices and gives this same
result: the evaluator's recursion depth is bounded by the step count plus
the document depth. -/
theorem recursive_descent_name (pred : Pred) (doc : JVal) (f : Nat)
    (hf : jdepth doc + 3 ≤ f) :
    compileSteps "$..name" = .ok [s2l "..", s2l "name"] ∧
      traceF pred [s2l "..", s2l "name"] f doc 0 (s2l "$") =
        .ok (collectName doc (s2l "$")) :=
  ⟨by decide, traceC9_main pred (jdepth doc) doc le_rfl (s2l "$") f hf⟩

/-- C9 (witness): the theorem applied to a two-level document with fuel
exactly at the bound. -/
theorem recursive_descent_name_witness :
    jdepth (JVal.obj [("name", .str "n0"), ("kid", .obj [("name", .str "n1")])]) + 3 ≤ 5 ∧
      (compileSteps "$..name" = .ok [s2l "..", s2l "name"] ∧
        traceF noPred [s2l "..", s2l "name"] 5
          (JVal.obj [("name", .str "n0"), ("kid", .obj [("name", .str "n1")])]) 0 (s2l "$") =
          .ok (collectName
            (JVal.obj [("name", .str "n0"), ("kid", .obj [("name", .str "n1")])]) (s2l "$"))) :=
  ⟨by decide,
    recursive_descent_name noPred
      (JVal.obj [("name", .str "n0"), ("kid", .obj [("name", .str "n1")])]) 5 (by decide)⟩

/-! ## Claim C2: mode symmetry and path resolution -/

/-- One segment of a PATH string, resolved against a value the way the
evaluator built it: a decimal index into a list, a key into a mapping. -/
def resolveStep (v : JVal) (s : List Char) : Option JVal :=
  match v with
  | .arr l => if isDigitStr s then l.get? (chToNat s) else none
  | .obj m => jlookup m (String.mk s)
  | _ => none

/-- Walk the document along a list of path segments. -/
def resolve (v : JVal) : List (List Char) → Option JVal
  | [] => some v
  | s :: rest => (resolveStep v s).bind (fun c => resolve c rest)

/-- The textual path built by `_trace` for a list of segments: `$` followed
by `;`-prefixed segments. -/
def renderPath (segs : List (List Char)) : List Char :=
  '$' :: (segs.map (fun s => ';' :: s)).join

theorem renderPath_snoc (qs : List (List Char)) (s : List Char) :
    renderPath (qs ++ [s]) = renderPath qs ++ ';' :: s := by
  simp [renderPath]

theorem resolve_snoc (doc : JVal) :
    ∀ (qs : List (List Char)) (s : List Char),
      resolve doc (qs ++ [s]) = (resolve doc qs).bind (fun v => resolveStep v s) := by
  intro qs
  induction qs generalizing doc with
  | nil =>
    intro s
    simp [resolve]
  | cons q rest ih =>
    intro s
    simp only [List.cons_append, resolve]
    cases resolveStep doc q with
    | none => rfl
    | some c =>
      exact ih c s

theorem splitSep_ne_nil (sep : Char) : ∀ s, splitSep sep s ≠ [] := by
  intro s
  cases s with
  | nil => simp [splitSep]
  | cons c rest =>
    unfold splitSep
    by_cases hc : c = sep
    · rw [if_pos hc]
      simp
    · rw [if_neg hc]
      cases h : splitSep sep rest with
      | nil => simp
      | cons p ps => simp

theorem splitSep_append_left (sep : Char) :
    ∀ (u : List Char), sep ∉ u → ∀ t,
      splitSep sep (u ++ t) =
        match splitSep sep t with
        | p :: ps => (u ++ p) :: ps
        | [] => [u] := by
  intro u
  induction u with
  | nil =>
    intro _ t
    cases ht : splitSep sep t with
    | nil => exact absurd ht (splitSep_ne_nil sep t)
    | cons p ps => simp [ht]
  | cons c cu ihu =>
    intro hu t
    simp only [List.mem_cons, not_or] at hu
    have hc : ¬c = sep := fun hcc => hu.1 hcc.symm
    simp only [List.cons_append, splitSep, if_neg hc, List.append_eq, ihu hu.2 t]
    cases splitSep sep t with
    | nil => rfl
    | cons p ps => rfl

theorem splitSep_join_semi :
    ∀ (qs : List (List Char)), (∀ s ∈ qs, ';' ∉ s) →
      splitSep ';' ((qs.map (fun s => ';' :: s)).join) = [] :: qs := by
  intro qs
  induction qs with
  | nil => intro _; rfl
  | cons q rest ih =>
    intro h
    simp only [List.map_cons, List.join_cons, List.cons_append]
    rw [show splitSep ';' (';' :: (q ++ (rest.map (fun s => ';' :: s)).join)) =
      [] :: splitSep ';' (q ++ (rest.map (fun s => ';' :: s)).join) from by simp [splitSep]]
    rw [splitSep_append_left ';' q (h q (List.mem_cons_self _ _)) _]
    rw [ih (fun s hs => h s (List.mem_cons_of_mem _ hs))]
    simp

/-- Splitting the rendered path on `;` recovers `$` and the segments, when
no segment contains `;`. -/
theorem splitSep_renderPath (qs : List (List Char)) (h : ∀ s ∈ qs, ';' ∉ s) :
    splitSep ';' (renderPath qs) = s2l "$" :: qs := by
  unfold renderPath
  rw [show splitSep ';' ('$' :: (qs.map (fun s => ';' :: s)).join) =
    (match splitSep ';' ((qs.map (fun s => ';' :: s)).join) with
      | p :: ps => ('$' :: p) :: ps
      | [] => [['$']]) from by simp [splitSep]]
  rw [splitSep_join_semi qs h]
  rfl


/-! ## Claim C2: well-formed documents and path resolution -/

mutual
/-- Well-formedness of a document for path resolution: every mapping has
unique keys (true of every Python dict) containing no `;` (the path
separator, which would make the rendered path string ambiguous). -/
def wfDoc : JVal → Bool
  | .arr l => wfArr l
  | .obj m => wfObj m
  | _ => true
def wfArr : List JVal → Bool
  | [] => true
  | v :: vs => wfDoc v && wfArr vs
def wfObj : List (String × JVal) → Bool
  | [] => true
  | (k, v) :: rest =>
    decide (';' ∉ k.data) && decide (k ∉ rest.map Prod.fst) && wfDoc v && wfObj rest
end

theorem wfArr_mem : ∀ (l : List JVal), wfArr l = true → ∀ v ∈ l, wfDoc v = true := by
  intro l
  induction l with
  | nil => intro _ v hv; cases hv
  | cons x xs ih =>
    intro h v hv
    have h' : (wfDoc x && wfArr xs) = true := h
    rw [Bool.and_eq_true] at h'
    cases hv with
    | head => exact h'.1
    | tail _ hv => exact ih h'.2 v hv

theorem wfObj_mem : ∀ (m : List (String × JVal)), wfObj m = true →
    ∀ kv ∈ m, (';' ∉ kv.1.data) ∧ wfDoc kv.2 = true := by
  intro m
  induction m with
  | nil => intro _ kv hkv; cases hkv
  | cons x xs ih =>
    intro h kv hkv
    obtain ⟨k, v⟩ := x
    have h' : (decide (';' ∉ k.data) && decide (k ∉ xs.map Prod.fst) && wfDoc v
        && wfObj xs) = true := h
    simp only [Bool.and_eq_true, decide_eq_true_eq] at h'
    cases hkv with
    | head => exact ⟨h'.1.1.1, h'.1.2⟩
    | tail _ hkv => exact ih h'.2 kv hkv

theorem jlookup_of_mem_nodup : ∀ (m : List (String × JVal)), wfObj m = true →
    ∀ (k : String) (v : JVal), (k, v) ∈ m → jlookup m k = some v := by
  intro m
  induction m with
  | nil => intro _ k v hkv; cases hkv
  | cons x xs ih =>
    intro h k v hkv
    obtain ⟨k0, v0⟩ := x
    have h' : (decide (';' ∉ k0.data) && decide (k0 ∉ xs.map Prod.fst) && wfDoc v0
        && wfObj xs) = true := h
    simp only [Bool.and_eq_true, decide_eq_true_eq] at h'
    cases hkv with
    | head => simp [jlookup]
    | tail _ hkv =>
      have hne : k0 ≠ k := by
        intro he
        exact h'.1.1.2 (he ▸ List.mem_map_of_mem Prod.fst hkv)
      show (if k0 = k then some v0 else jlookup xs k) = some v
      rw [if_neg hne]
      exact ih h'.2 k v hkv

theorem resolveStep_wf (obj : JVal) (s : List Char) (v : JVal)
    (hwf : wfDoc obj = true) (h : resolveStep obj s = some v) : wfDoc v = true := by
  cases obj with
  | arr l =>
    simp only [resolveStep] at h
    by_cases hd : isDigitStr s
    · rw [if_pos hd] at h
      exact wfArr_mem l hwf v (List.get?_mem h)
    · rw [if_neg hd] at h
      cases h
  | obj m => exact (wfObj_mem m hwf _ (jlookup_mem m (String.mk s) v h)).2
  | null => cases h
  | bool b => cases h
  | num n => cases h
  | str t => cases h

theorem resolve_wf : ∀ (qs : List (List Char)) (doc obj : JVal),
    wfDoc doc = true → resolve doc qs = some obj → wfDoc obj = true := by
  intro qs
  induction qs with
  | nil =>
    intro doc obj hw h
    have h' : some doc = some obj := h
    injection h' with h'
    rw [← h']
    exact hw
  | cons q rest ih =>
    intro doc obj hw h
    cases hrs : resolveStep doc q with
    | none =>
      rw [resolve, hrs] at h
      cases h
    | some c =>
      rw [resolve, hrs] at h
      exact ih c obj (resolveStep_wf doc q c hw hrs) h

theorem arr_enum_resolve (l : List JVal) (n : Nat) (v : JVal) (h : (n, v) ∈ l.enum) :
    ';' ∉ natChars n ∧ resolveStep (.arr l) (natChars n) = some v := by
  constructor
  · exact natChars_not_mem n ';' (by decide)
  · have h1 : (natChars n).isEmpty = false := by
      cases hn : natChars n with
      | nil => exact absurd hn (natChars_ne_nil n)
      | cons a as => rfl
    have hd : isDigitStr (natChars n) = true := by
      simp [isDigitStr, h1, natChars_all_digit n]
    show (if isDigitStr (natChars n) then l.get? (chToNat (natChars n)) else none) = some v
    rw [if_pos hd, chToNat_natChars]
    exact enum_get? l n v h

theorem childrenOf_resolve (obj : JVal) (hwf : wfDoc obj = true) :
    ∀ sc ∈ childrenOf obj, (';' ∉ sc.1) ∧ resolveStep obj sc.1 = some sc.2 := by
  intro sc hsc
  cases obj with
  | arr l =>
    simp only [childrenOf, List.mem_map] at hsc
    obtain ⟨⟨n, v⟩, hnv, hmap⟩ := hsc
    subst hmap
    exact arr_enum_resolve l n v hnv
  | obj m =>
    simp only [childrenOf, List.mem_map] at hsc
    obtain ⟨⟨k, v⟩, hkv, hmap⟩ := hsc
    subst hmap
    exact ⟨(wfObj_mem m hwf _ hkv).1, jlookup_of_mem_nodup m hwf k v hkv⟩
  | null => simp [childrenOf] at hsc
  | bool b => simp [childrenOf] at hsc
  | num n => simp [childrenOf] at hsc
  | str t => simp [childrenOf] at hsc

theorem splitSep_mem_chars (sep : Char) :
    ∀ (s p : List Char), p ∈ splitSep sep s → ∀ c ∈ p, c ∈ s := by
  intro s
  induction s with
  | nil =>
    intro p hp c hc
    simp only [splitSep, List.mem_singleton] at hp
    subst hp
    cases hc
  | cons a rest ih =>
    intro p hp c hc
    by_cases ha : a = sep
    · simp only [splitSep] at hp
      rw [if_pos ha] at hp
      cases hp with
      | head => cases hc
      | tail _ hp => exact List.mem_cons_of_mem a (ih p hp c hc)
    · simp only [splitSep] at hp
      rw [if_neg ha] at hp
      cases hq : splitSep sep rest with
      | nil => exact absurd hq (splitSep_ne_nil sep rest)
      | cons q qs =>
        rw [hq] at hp
        have hp' : p ∈ (a :: q) :: qs := hp
        cases hp' with
        | head =>
          cases hc with
          | head => exact List.mem_cons_self a rest
          | tail _ hc =>
            exact List.mem_cons_of_mem a
              (ih q (by rw [hq]; exact List.mem_cons_self q qs) c hc)
        | tail _ hp2 =>
          exact List.mem_cons_of_mem a
            (ih p (by rw [hq]; exact List.mem_cons_of_mem q hp2) c hc)

theorem joinM_ok_inv : ∀ (xs : List (Except JErr (List α))) (res : List α),
    joinM xs = .ok res → ∀ y ∈ res, ∃ x ∈ xs, ∃ rx, x = .ok rx ∧ y ∈ rx := by
  intro xs
  induction xs with
  | nil =>
    intro res h y hy
    have h' : (Except.ok [] : Except JErr (List α)) = .ok res := h
    injection h' with h'
    subst h'
    cases hy
  | cons x xs ih =>
    intro res h y hy
    cases hx : x with
    | error e =>
      rw [hx] at h
      have h' : (Except.error e : Except JErr (List α)) = .ok res := h
      cases h'
    | ok a =>
      rw [hx] at h
      have h' : (joinM xs >>= fun b => (Except.ok (a ++ b) : Except JErr (List α)))
          = .ok res := h
      cases hj : joinM xs with
      | error e =>
        rw [hj, error_bind] at h'
        cases h'
      | ok b =>
        rw [hj, ok_bind] at h'
        injection h' with h'
        subst h'
        rcases List.mem_append.mp hy with h1 | h2
        · exact ⟨Except.ok a, List.mem_cons_self _ xs, a, rfl, h1⟩
        · obtain ⟨x', hx', rx, hrx, hyrx⟩ := ih b hj y h2
          exact ⟨x', List.mem_cons_of_mem _ hx', rx, hrx, hyrx⟩

theorem traceStep_shaped (pred : Pred) {go : TraceRec} {obj : JVal} {i : Nat}
    {path step : List Char} {r : TraceRes}
    (h1 : step ≠ s2l "*") (h2 : step ≠ s2l "..")
    (h : shapedStep go obj i path step = some r) :
    traceStep pred go obj i path step = r := by
  rw [traceStep, if_neg h1, if_neg h2, h]

theorem traceStep_unshaped (pred : Pred) {go : TraceRec} {obj : JVal} {i : Nat}
    {path step : List Char}
    (h1 : step ≠ s2l "*") (h2 : step ≠ s2l "..")
    (h : shapedStep go obj i path step = none) :
    traceStep pred go obj i path step =
      (if filterShape step then filterStep pred go obj i path step
       else if sorterShape step then sorterStep go obj i path step
       else if extractShape step then extractStep go obj i path step
       else .ok []) := by
  rw [traceStep, if_neg h1, if_neg h2, h]

/-- Every `(path, value)` pair stored by a trace resolves: when the
document is well-formed, every step is `;`-free and no step is a field
extractor, the stored path renders a segment list along which walking the
document reaches the stored value. -/
theorem traceF_resolve (pred : Pred) (segs : List (List Char)) (doc : JVal)
    (hwf : wfDoc doc = true)
    (hx : ∀ s ∈ segs, extractShape s = false)
    (hs : ∀ s ∈ segs, ';' ∉ s) :
    ∀ (fuel : Nat) (obj : JVal) (i : Nat) (qs : List (List Char))
      (res : List (List Char × JVal)),
      resolve doc qs = some obj →
      (∀ s ∈ qs, ';' ∉ s) →
      traceF pred segs fuel obj i (renderPath qs) = .ok res →
      ∀ pv ∈ res,
        ∃ qs', (∀ s ∈ qs', ';' ∉ s) ∧ pv.1 = renderPath qs' ∧
          resolve doc qs' = some pv.2 := by
  intro fuel
  induction fuel with
  | zero =>
    intro obj i qs res _ _ ht
    cases ht
  | succ g ih =>
    intro obj i qs res hres hqs ht pv hpv
    rw [traceF_unfold] at ht
    cases hstep : segs.get? i with
    | none =>
      rw [hstep] at ht
      have ht3 : (Except.ok [(renderPath qs, obj)] : TraceRes) = .ok res := ht
      injection ht3 with h3
      subst h3
      have hpv2 := List.mem_singleton.mp hpv
      subst hpv2
      exact ⟨qs, hqs, rfl, hres⟩
    | some step =>
      rw [hstep] at ht
      have hts : traceStep pred (fun v j p => traceF pred segs g v j p) obj i
          (renderPath qs) step = .ok res := ht
      clear ht
      have hstepmem : step ∈ segs := List.get?_mem hstep
      have hxs : extractShape step = false := hx step hstepmem
      have hss : ';' ∉ step := hs step hstepmem
      have hwo : wfDoc obj = true := resolve_wf qs doc obj hwf hres
      have hchild : ∀ (v : JVal) (seg : List Char) (j : Nat)
          (rx : List (List Char × JVal)),
          resolveStep obj seg = some v → ';' ∉ seg →
          traceF pred segs g v j (renderPath qs ++ ';' :: seg) = .ok rx →
          ∀ pv' ∈ rx, ∃ qs', (∀ s ∈ qs', ';' ∉ s) ∧ pv'.1 = renderPath qs' ∧
            resolve doc qs' = some pv'.2 := by
        intro v seg j rx hrs hsemi htr
        refine ih v j (qs ++ [seg]) rx ?_ ?_ ?_
        · rw [resolve_snoc doc qs seg, hres]
          exact hrs
        · intro s hsmem
          rcases List.mem_append.mp hsmem with h | h
          · exact hqs s h
          · rw [List.mem_singleton.mp h]
            exact hsemi
        · rw [renderPath_snoc]
          exact htr
      have hjoin : ∀ (j : Nat) (res' : List (List Char × JVal)),
          joinM ((childrenOf obj).map (fun sc =>
            traceF pred segs g sc.2 j (renderPath qs ++ ';' :: sc.1))) = .ok res' →
          ∀ pv' ∈ res', ∃ qs', (∀ s ∈ qs', ';' ∉ s) ∧ pv'.1 = renderPath qs' ∧
            resolve doc qs' = some pv'.2 := by
        intro j res' hj pv' hpv'
        obtain ⟨x, hxmem, rx, hrx, hpvrx⟩ := joinM_ok_inv _ res' hj pv' hpv'
        obtain ⟨sc, hsc, hfx⟩ := List.mem_map.mp hxmem
        obtain ⟨hscsemi, hscres⟩ := childrenOf_resolve obj hwo sc hsc
        exact hchild sc.2 sc.1 j rx hscres hscsemi (hfx.trans hrx) pv' hpvrx
      by_cases h1 : step = s2l "*"
      · rw [traceStep, if_pos h1] at hts
        simp only [wildStep] at hts
        exact hjoin (i + 1) res hts pv hpv
      · by_cases h2 : step = s2l ".."
        · rw [traceStep, if_neg h1, if_pos h2] at hts
          simp only [descendStep] at hts
          cases ha : traceF pred segs g obj (i + 1) (renderPath qs) with
          | error e =>
            rw [ha, error_bind] at hts
            exact Except.noConfusion hts
          | ok a =>
            simp only [ha, ok_bind] at hts
            cases hb : joinM ((childrenOf obj).map (fun sc =>
                traceF pred segs g sc.2 i (renderPath qs ++ ';' :: sc.1))) with
            | error e =>
              rw [hb, error_bind] at hts
              exact Except.noConfusion hts
            | ok b =>
              rw [hb, ok_bind] at hts
              injection hts with h3
              subst h3
              rcases List.mem_append.mp hpv with hin | hin
              · exact ih obj (i + 1) qs a hres hqs ha pv hin
              · exact hjoin i b hb pv hin
        · have htail : shapedStep (fun v j p => traceF pred segs g v j p) obj i
              (renderPath qs) step = none →
              ∃ qs', (∀ s ∈ qs', ';' ∉ s) ∧ pv.1 = renderPath qs' ∧
                resolve doc qs' = some pv.2 := by
            intro hsh
            rw [traceStep_unshaped pred h1 h2 hsh] at hts
            by_cases hf : filterShape step
            · rw [if_pos hf] at hts
              simp only [filterStep] at hts
              obtain ⟨x, hxmem, rx, hrx, hpvrx⟩ := joinM_ok_inv _ res hts pv hpv
              obtain ⟨sc, hsc, hfx⟩ := List.mem_map.mp hxmem
              obtain ⟨hscsemi, hscres⟩ := childrenOf_resolve obj hwo sc hsc
              cases hp : pred (inner2 step) sc.2 with
              | ok b =>
                cases b with
                | true =>
                  simp only [hp] at hfx
                  exact hchild sc.2 sc.1 (i + 1) rx hscres hscsemi
                    (hfx.trans hrx) pv hpvrx
                | false =>
                  simp only [hp] at hfx
                  rw [← hfx] at hrx
                  injection hrx with h3
                  subst h3
                  cases hpvrx
              | error e =>
                simp only [hp] at hfx
                rw [← hfx] at hrx
                injection hrx with h3
                subst h3
                cases hpvrx
            · rw [if_neg hf] at hts
              by_cases hso : sorterShape step
              · rw [if_pos hso] at hts
                cases obj with
                | arr l =>
                  simp only [sorterStep] at hts
                  cases hsrt : sorter (inner2 step) l.enum with
                  | error e =>
                    rw [hsrt, error_bind] at hts
                    exact Except.noConfusion hts
                  | ok pairs =>
                    rw [hsrt, ok_bind] at hts
                    obtain ⟨x, hxmem, rx, hrx, hpvrx⟩ :=
                      joinM_ok_inv _ res hts pv hpv
                    obtain ⟨nv, hnv, hfx⟩ := List.mem_map.mp hxmem
                    have hmem : nv ∈ l.enum := sorter_mem _ _ _ hsrt nv hnv
                    obtain ⟨n, v⟩ := nv
                    obtain ⟨hsemi, hres2⟩ := arr_enum_resolve l n v hmem
                    exact hchild v (natChars n) (i + 1) rx hres2 hsemi
                      (hfx.trans hrx) pv hpvrx
                | obj m =>
                  simp only [sorterStep] at hts
                  cases hsrt : sorter (inner2 step) m with
                  | error e =>
                    rw [hsrt, error_bind] at hts
                    exact Except.noConfusion hts
                  | ok pairs =>
                    rw [hsrt, ok_bind] at hts
                    obtain ⟨x, hxmem, rx, hrx, hpvrx⟩ :=
                      joinM_ok_inv _ res hts pv hpv
                    obtain ⟨kv, hkv, hfx⟩ := List.mem_map.mp hxmem
                    have hmem : kv ∈ m := sorter_mem _ _ _ hsrt kv hkv
                    obtain ⟨hsemi, hres2⟩ := childrenOf_resolve (.obj m) hwo
                      (kv.1.data, kv.2) (List.mem_map_of_mem _ hmem)
                    exact hchild kv.2 kv.1.data (i + 1) rx hres2 hsemi
                      (hfx.trans hrx) pv hpvrx
                | null =>
                  simp only [sorterStep] at hts
                  exact Except.noConfusion hts
                | bool b =>
                  simp only [sorterStep] at hts
                  exact Except.noConfusion hts
                | num n =>
                  simp only [sorterStep] at hts
                  exact Except.noConfusion hts
                | str t =>
                  simp only [sorterStep] at hts
                  exact Except.noConfusion hts
              · rw [if_neg hso, if_neg (show ¬extractShape step = true by
                  simp [hxs])] at hts
                injection hts with h3
                subst h3
                cases hpv
          cases obj with
          | arr l =>
            by_cases hd : isDigitStr step
            · have hsh : shapedStep (fun v j p => traceF pred segs g v j p)
                  (.arr l) i (renderPath qs) step =
                  some (if h : chToNat step < l.length then
                    traceF pred segs g (l.get ⟨chToNat step, h⟩) (i + 1)
                      (renderPath qs ++ ';' :: step)
                  else .ok []) := by
                simp [shapedStep, hd]
              rw [traceStep_shaped pred h1 h2 hsh] at hts
              by_cases hlt : chToNat step < l.length
              · rw [dif_pos hlt] at hts
                have hres2 : resolveStep (.arr l) step =
                    some (l.get ⟨chToNat step, hlt⟩) := by
                  show (if isDigitStr step then l.get? (chToNat step) else none) =
                    some (l.get ⟨chToNat step, hlt⟩)
                  rw [if_pos hd]
                  exact List.get?_eq_get hlt
                exact hchild _ step (i + 1) res hres2 hss hts pv hpv
              · rw [dif_neg hlt] at hts
                injection hts with h3
                subst h3
                cases hpv
            · by_cases hsl : sliceMatch step
              · have hsh : shapedStep (fun v j p => traceF pred segs g v j p)
                    (.arr l) i (renderPath qs) step =
                    some (do
                      let pairs ← sliceEval l.enum step
                      joinM (pairs.map (fun nv => traceF pred segs g nv.2 (i + 1)
                        (renderPath qs ++ ';' :: natChars nv.1)))) := by
                  simp [shapedStep, hd, hsl]
                rw [traceStep_shaped pred h1 h2 hsh] at hts
                cases hse : sliceEval l.enum step with
                | error e =>
                  rw [hse, error_bind] at hts
                  exact Except.noConfusion hts
                | ok pairs =>
                  rw [hse, ok_bind] at hts
                  obtain ⟨x, hxmem, rx, hrx, hpvrx⟩ :=
                    joinM_ok_inv _ res hts pv hpv
                  obtain ⟨nv, hnv, hfx⟩ := List.mem_map.mp hxmem
                  have hmem : nv ∈ l.enum := sliceEval_subset l.enum step pairs hse nv hnv
                  obtain ⟨n, v⟩ := nv
                  obtain ⟨hsemi, hres2⟩ := arr_enum_resolve l n v hmem
                  exact hchild v (natChars n) (i + 1) rx hres2 hsemi
                    (hfx.trans hrx) pv hpvrx
              · exact htail (by simp [shapedStep, hd, hsl])
          | obj m =>
            cases hjl : jlookup m (String.mk step) with
            | some v =>
              have hsh : shapedStep (fun v' j p => traceF pred segs g v' j p)
                  (.obj m) i (renderPath qs) step =
                  some (traceF pred segs g v (i + 1)
                    (renderPath qs ++ ';' :: step)) := by
                simp [shapedStep, hjl]
              rw [traceStep_shaped pred h1 h2 hsh] at hts
              exact hchild v step (i + 1) res hjl hss hts pv hpv
            | none =>
              by_cases hsel : selMatch step
              · have hsh : shapedStep (fun v j p => traceF pred segs g v j p)
                    (.obj m) i (renderPath qs) step =
                    some (joinM ((splitSep ',' step).map (fun k =>
                      match jlookup m (String.mk k) with
                      | some v => traceF pred segs g v (i + 1)
                          (renderPath qs ++ ';' :: k)
                      | none => .ok []))) := by
                  simp [shapedStep, hjl, hsel]
                rw [traceStep_shaped pred h1 h2 hsh] at hts
                obtain ⟨x, hxmem, rx, hrx, hpvrx⟩ := joinM_ok_inv _ res hts pv hpv
                obtain ⟨k, hk, hfx⟩ := List.mem_map.mp hxmem
                have hksemi : ';' ∉ k :=
                  fun hc => hss (splitSep_mem_chars ',' step k hk ';' hc)
                cases hjk : jlookup m (String.mk k) with
                | some v =>
                  simp only [hjk] at hfx
                  exact hchild v k (i + 1) rx hjk hksemi (hfx.trans hrx) pv hpvrx
                | none =>
                  simp only [hjk] at hfx
                  rw [← hfx] at hrx
                  injection hrx with h3
                  subst h3
                  cases hpvrx
              · exact htail (by simp [shapedStep, hjl, hsel])
          | null => exact htail (by simp [shapedStep])
          | bool b => exact htail (by simp [shapedStep])
          | num n => exact htail (by simp [shapedStep])
          | str t => exact htail (by simp [shapedStep])

/-- C2 counterexample: with a field-extractor step the two modes diverge
from the claimed resolution property.  `$.(a,b)` on `{"a": 1, "c": 3}`
stores the projected mapping under the unchanged path `$`; the PATH result
`$` has no segments, and walking the document along no segments yields the
original document, not the stored VALUE result. -/
theorem mode_symmetry_counterexample :
    runPaths noPred "$.(a,b)" (.obj [("a", .num 1), ("c", .num 3)]) = .ok [s2l "$"] ∧
    run noPred "$.(a,b)" (.obj [("a", .num 1), ("c", .num 3)]) =
      .ok [.obj [("a", .num 1), ("b", .null)]] ∧
    splitSep ';' (s2l "$") = [s2l "$"] ∧
    resolve (.obj [("a", .num 1), ("c", .num 3)]) [] =
      some (.obj [("a", .num 1), ("c", .num 3)]) ∧
    (JVal.obj [("a", .num 1), ("c", .num 3)]) ≠ .obj [("a", .num 1), ("b", .null)] := by
  refine ⟨by decide, by decide, by decide, by decide, by decide⟩

/-- C2 (amended): VALUE mode and PATH mode are the two projections of one
traversal, so the result lists always have the same length and order.
Resolution holds away from field extractors: when no step is a field
extractor, the document's mapping keys are unique and `;`-free, and no
step contains `;`, splitting each PATH result on `;` gives `$` followed by
segments along which walking the document yields exactly the paired VALUE
result.  A field-extractor step breaks resolution: it replaces the value
without extending the path. -/
theorem mode_symmetry (pred : Pred) (segs : List (List Char)) (doc : JVal) :
    (∀ vres pres, parseVals pred segs doc = .ok vres →
        parsePaths pred segs doc = .ok pres → vres.length = pres.length) ∧
    ((∀ s ∈ segs, extractShape s = false) → wfDoc doc = true →
      (∀ s ∈ segs, ';' ∉ s) →
      ∀ res, parse pred segs doc = .ok res →
        ∀ pv ∈ res, ∃ qs, splitSep ';' pv.1 = s2l "$" :: qs ∧
          resolve doc qs = some pv.2) := by
  constructor
  · intro vres pres hv hp
    cases hres : parse pred segs doc with
    | error e =>
      rw [parseVals, hres] at hv
      exact Except.noConfusion hv
    | ok res =>
      rw [parseVals, hres] at hv
      rw [parsePaths, hres] at hp
      injection hv with hv
      injection hp with hp
      rw [← hv, ← hp]
      simp [List.length_map]
  · intro hx hwf hs res hp pv hpv
    cases doc with
    | arr l =>
      have ht : traceF pred segs (segs.length + jsize (JVal.arr l) + 1)
          (JVal.arr l) 0 ['$'] = .ok res := hp
      obtain ⟨qs', hq1, hq2, hq3⟩ := traceF_resolve pred segs (.arr l) hwf hx hs
        (segs.length + jsize (.arr l) + 1) (.arr l) 0 [] res rfl
        (by intro s hsm; cases hsm) ht pv hpv
      exact ⟨qs', by rw [hq2]; exact splitSep_renderPath qs' hq1, hq3⟩
    | obj m =>
      have ht : traceF pred segs (segs.length + jsize (JVal.obj m) + 1)
          (JVal.obj m) 0 ['$'] = .ok res := hp
      obtain ⟨qs', hq1, hq2, hq3⟩ := traceF_resolve pred segs (.obj m) hwf hx hs
        (segs.length + jsize (.obj m) + 1) (.obj m) 0 [] res rfl
        (by intro s hsm; cases hsm) ht pv hpv
      exact ⟨qs', by rw [hq2]; exact splitSep_renderPath qs' hq1, hq3⟩
    | null => exact Except.noConfusion hp
    | bool b => exact Except.noConfusion hp
    | num n => exact Except.noConfusion hp
    | str t => exact Except.noConfusion hp

theorem mode_symmetry_witness :
    ∃ qs, splitSep ';' (s2l "$;scores;1") = s2l "$" :: qs ∧
      resolve docC1 qs = some (JVal.num 2) :=
  (mode_symmetry noPred [s2l "scores", s2l "1"] docC1).2
    (by decide) (by decide) (by decide)
    [(s2l "$;scores;1", JVal.num 2)] (by decide)
    (s2l "$;scores;1", JVal.num 2) (by decide)

/-! ## Claim C7: the sorter is a multi-key stable sort -/

/-- The sort field of one comma-separated sort key: a leading `~`
(descending marker) is stripped. -/
def sortField (sb : List Char) : List Char :=
  match sb with
  | '~' :: k => k
  | k => k

/-- Whether one sort key requests descending order (leading `~`). -/
def sortDescend (sb : List Char) : Bool :=
  match sb with
  | '~' :: _ => true
  | _ => false

theorem sortField_not_tilde (sb : List Char) (h : sb.head? ≠ some '~') :
    sortField sb = sb := by
  cases sb with
  | nil => rfl
  | cons c k =>
    by_cases hc : c = '~'
    · subst hc
      exact absurd rfl h
    · unfold sortField
      split
      · next k' heq =>
        injection heq with h1 _
        exact absurd h1 hc
      · rfl

theorem sortDescend_not_tilde (sb : List Char) (h : sb.head? ≠ some '~') :
    sortDescend sb = false := by
  cases sb with
  | nil => rfl
  | cons c k =>
    by_cases hc : c = '~'
    · subst hc
      exact absurd rfl h
    · unfold sortDescend
      split
      · next k' heq =>
        injection heq with h1 _
        exact absurd h1 hc
      · rfl

/-- The integer under a numeric value (`0` elsewhere; only used under the
hypothesis that every sort key value is numeric). -/
def numOf : JVal → Int
  | .num z => z
  | _ => 0

/-- The signed sort key of one element for one sort key: negated for a
descending (`~`) key, so that the intended final order is ascending in
every signed key. -/
def signedKey (sb : List Char) (p : β × JVal) : Int :=
  if sortDescend sb then -(numOf (pyGetattr p.2 (sortField sb)))
  else numOf (pyGetattr p.2 (sortField sb))

/-- The vector of signed sort keys over the listed sort keys, in listed
order: the intended final order is the lexicographic order on these
vectors, ties broken by original position. -/
def keyVec (ks : List (List Char)) (p : β × JVal) : List Int :=
  ks.map (fun sb => signedKey sb p)

/-- Strict lexicographic order on integer vectors. -/
def vecLt : List Int → List Int → Bool
  | [], _ => false
  | _ :: _, [] => false
  | a :: as, b :: bs => if a < b then true else if b < a then false else vecLt as bs

/-- Pure stable insertion: place `x` before the first `y` whose key is not
below `x`'s (the pure image of `insertM`). -/
def specInsert (ltB : α → α → Bool) (x : α) : List α → List α
  | [] => [x]
  | y :: ys => if ltB y x then y :: specInsert ltB x ys else x :: y :: ys

/-- Pure stable insertion sort (the pure image of `isortM`). -/
def specSortBy (ltB : α → α → Bool) : List α → List α
  | [] => []
  | x :: xs => specInsert ltB x (specSortBy ltB xs)

/-- The pure image of one `list.sort` call (`pySortM`) under numeric keys
`f`: `reverse=True` reverses before and after the ascending stable sort,
as CPython does. -/
def purePass (f : α → Int) (rev : Bool) (l : List α) : List α :=
  if rev then (specSortBy (fun a b => decide (f a < f b)) l.reverse).reverse
  else specSortBy (fun a b => decide (f a < f b)) l

/-- The pure image of the whole `_sorter` loop: one pass per key, from the
last listed key to the first. -/
def pureSorter (ks : List (List Char)) (pairs : List (β × JVal)) : List (β × JVal) :=
  ks.reverse.foldl
    (fun cur sb =>
      purePass (fun p => numOf (pyGetattr p.2 (sortField sb))) (sortDescend sb) cur)
    pairs

theorem specInsert_perm (ltB : α → α → Bool) (x : α) :
    ∀ l, (specInsert ltB x l).Perm (x :: l) := by
  intro l
  induction l with
  | nil => exact List.Perm.refl [x]
  | cons y ys ih =>
    show (if ltB y x then y :: specInsert ltB x ys else x :: y :: ys).Perm (x :: y :: ys)
    by_cases h : ltB y x = true
    · rw [if_pos h]
      exact (ih.cons y).trans (List.Perm.swap x y ys)
    · rw [if_neg h]

theorem specSortBy_perm (ltB : α → α → Bool) : ∀ l, (specSortBy ltB l).Perm l := by
  intro l
  induction l with
  | nil => exact List.Perm.refl []
  | cons x xs ih =>
    exact (specInsert_perm ltB x (specSortBy ltB xs)).trans (ih.cons x)

theorem purePass_perm (f : α → Int) (rev : Bool) (l : List α) :
    (purePass f rev l).Perm l := by
  cases rev with
  | false => exact specSortBy_perm _ l
  | true =>
    exact ((List.reverse_perm _).trans (specSortBy_perm _ l.reverse)).trans
      (List.reverse_perm l)

theorem insertM_eq_spec (lt : α → α → Except JErr Bool) (ltB : α → α → Bool) (x : α) :
    ∀ l, (∀ y ∈ l, lt y x = .ok (ltB y x)) →
      insertM lt x l = .ok (specInsert ltB x l) := by
  intro l
  induction l with
  | nil => intro _; rfl
  | cons y ys ih =>
    intro h
    have hy : lt y x = .ok (ltB y x) := h y (List.mem_cons_self y ys)
    have hins : specInsert ltB x (y :: ys) =
        if ltB y x then y :: specInsert ltB x ys else x :: y :: ys := rfl
    simp only [insertM, hy, ok_bind]
    by_cases hb : ltB y x = true
    · rw [if_pos hb, ih (fun z hz => h z (List.mem_cons_of_mem y hz)), hins, if_pos hb]
      rfl
    · rw [if_neg hb, hins, if_neg hb]

theorem isortM_eq_spec (lt : α → α → Except JErr Bool) (ltB : α → α → Bool) :
    ∀ l, (∀ x ∈ l, ∀ y ∈ l, lt x y = .ok (ltB x y)) →
      isortM lt l = .ok (specSortBy ltB l) := by
  intro l
  induction l with
  | nil => intro _; rfl
  | cons x xs ih =>
    intro h
    have hs : isortM lt xs = .ok (specSortBy ltB xs) :=
      ih (fun a ha b hb =>
        h a (List.mem_cons_of_mem x ha) b (List.mem_cons_of_mem x hb))
    simp only [isortM, hs, ok_bind]
    exact insertM_eq_spec lt ltB x (specSortBy ltB xs) (fun y hy =>
      h y (List.mem_cons_of_mem x ((specSortBy_perm ltB xs).mem_iff.mp hy)) x
        (List.mem_cons_self x xs))

theorem pySortM_eq_spec (keyf : α → JVal) (rev : Bool) (l : List α) (f : α → Int)
    (hk : ∀ x ∈ l, keyf x = .num (f x)) :
    pySortM keyf rev l = .ok (purePass f rev l) := by
  have hlt : ∀ x ∈ l, ∀ y ∈ l,
      pyLt (keyf x) (keyf y) = .ok (decide (f x < f y)) := by
    intro x hx y hy
    rw [hk x hx, hk y hy]
    simp [pyLt]
  cases rev with
  | false =>
    show isortM (fun a b => pyLt (keyf a) (keyf b)) l =
      .ok (specSortBy (fun a b => decide (f a < f b)) l)
    exact isortM_eq_spec _ _ l hlt
  | true =>
    show List.reverse <$> isortM (fun a b => pyLt (keyf a) (keyf b)) l.reverse =
      .ok ((specSortBy (fun a b => decide (f a < f b)) l.reverse).reverse)
    rw [isortM_eq_spec _ (fun a b => decide (f a < f b)) l.reverse
      (fun x hx y hy => hlt x (List.mem_reverse.mp hx) y (List.mem_reverse.mp hy))]
    rfl

theorem sortOne_eq_spec (pairs : List (β × JVal)) (sb : List Char)
    (hnum : ∀ p ∈ pairs, ∃ z : Int, pyGetattr p.2 (sortField sb) = .num z) :
    sortOne pairs sb =
      .ok (purePass (fun p => numOf (pyGetattr p.2 (sortField sb)))
        (sortDescend sb) pairs) := by
  have hk : ∀ p ∈ pairs, pyGetattr p.2 (sortField sb) =
      .num (numOf (pyGetattr p.2 (sortField sb))) := by
    intro p hp
    obtain ⟨z, hz⟩ := hnum p hp
    rw [hz]
    rfl
  by_cases ht : sb.head? = some '~'
  · obtain ⟨k, hk2⟩ : ∃ k, sb = '~' :: k := by
      cases sb with
      | nil => cases ht
      | cons c k =>
        injection ht with ht
        exact ⟨k, by rw [ht]⟩
    subst hk2
    show pySortM (fun t => pyGetattr t.2 k) true pairs = _
    exact pySortM_eq_spec _ true pairs _ (fun x hx => hk x hx)
  · rw [sortOne_not_tilde pairs sb ht, sortField_not_tilde sb ht] at *
    rw [sortDescend_not_tilde sb ht]
    exact pySortM_eq_spec _ false pairs _ (fun x hx => hk x hx)

theorem foldlM_sortOne_eq : ∀ (kl : List (List Char)) (pairs : List (β × JVal)),
    (∀ sb ∈ kl, ∀ p ∈ pairs, ∃ z : Int, pyGetattr p.2 (sortField sb) = .num z) →
    List.foldlM sortOne pairs kl =
      .ok (kl.foldl (fun cur sb =>
        purePass (fun p => numOf (pyGetattr p.2 (sortField sb))) (sortDescend sb) cur)
        pairs) := by
  intro kl
  induction kl with
  | nil => intro pairs _; rfl
  | cons sb rest ih =>
    intro pairs h
    have h1 := sortOne_eq_spec pairs sb (h sb (List.mem_cons_self sb rest))
    show (sortOne pairs sb >>= fun cur => List.foldlM sortOne cur rest) = _
    rw [h1, ok_bind]
    rw [ih (purePass _ _ pairs) (fun sb' hsb' p hp =>
      h sb' (List.mem_cons_of_mem sb hsb') p ((purePass_perm _ _ pairs).mem_iff.mp hp))]
    rfl

theorem sorter_eq_spec (sortbys : List Char) (pairs : List (β × JVal))
    (hnum : ∀ sb ∈ splitSep ',' sortbys, ∀ p ∈ pairs,
      ∃ z : Int, pyGetattr p.2 (sortField sb) = .num z) :
    sorter sortbys pairs = .ok (pureSorter (splitSep ',' sortbys) pairs) :=
  foldlM_sortOne_eq (splitSep ',' sortbys).reverse pairs
    (fun sb hsb => hnum sb (List.mem_reverse.mp hsb))

theorem specInsert_filter_pos (f : α → Int) (P : α → Bool) (x : α)
    (hx : P x = true) (hconst : ∀ y, P y = true → f y = f x) :
    ∀ l, (specInsert (fun a b => decide (f a < f b)) x l).filter P = x :: l.filter P := by
  intro l
  induction l with
  | nil => simp [specInsert, hx]
  | cons y ys ih =>
    show (if decide (f y < f x) = true then y :: specInsert _ x ys
      else x :: y :: ys).filter P = x :: (y :: ys).filter P
    by_cases hb : f y < f x
    · rw [if_pos (decide_eq_true hb)]
      by_cases hPy : P y = true
      · exact absurd hb (by rw [hconst y hPy]; exact lt_irrefl (f x))
      · rw [List.filter_cons, if_neg hPy, ih, List.filter_cons, if_neg hPy]
    · rw [if_neg (fun hc => hb (of_decide_eq_true hc)), List.filter_cons, if_pos hx]

theorem specInsert_filter_neg (f : α → Int) (P : α → Bool) (x : α)
    (hx : P x = false) :
    ∀ l, (specInsert (fun a b => decide (f a < f b)) x l).filter P = l.filter P := by
  intro l
  induction l with
  | nil => simp [specInsert, hx]
  | cons y ys ih =>
    show (if decide (f y < f x) = true then y :: specInsert _ x ys
      else x :: y :: ys).filter P = (y :: ys).filter P
    by_cases hb : f y < f x
    · rw [if_pos (decide_eq_true hb), List.filter_cons, ih, List.filter_cons]
    · rw [if_neg (fun hc => hb (of_decide_eq_true hc)), List.filter_cons,
        if_neg (by simp [hx])]

theorem specSortBy_filter (f : α → Int) (P : α → Bool)
    (hconst : ∀ a b, P a = true → P b = true → f a = f b) :
    ∀ l, (specSortBy (fun a b => decide (f a < f b)) l).filter P = l.filter P := by
  intro l
  induction l with
  | nil => rfl
  | cons x xs ih =>
    show (specInsert _ x (specSortBy _ xs)).filter P = (x :: xs).filter P
    by_cases hx : P x = true
    · rw [specInsert_filter_pos f P x hx (fun y hy => hconst y x hy hx), ih,
        List.filter_cons, if_pos hx]
    · have hx' : P x = false := by
        cases hPx : P x
        · rfl
        · exact absurd hPx hx
      rw [specInsert_filter_neg f P x hx', ih, List.filter_cons, if_neg hx]

theorem purePass_filter (f : α → Int) (rev : Bool) (P : α → Bool)
    (hconst : ∀ a b, P a = true → P b = true → f a = f b) (l : List α) :
    (purePass f rev l).filter P = l.filter P := by
  cases rev with
  | false => exact specSortBy_filter f P hconst l
  | true =>
    show ((specSortBy _ l.reverse).reverse).filter P = l.filter P
    rw [List.filter_reverse, specSortBy_filter f P hconst, ← List.filter_reverse,
      List.reverse_reverse]

theorem specInsert_pairwise (f : α → Int) (x : α) :
    ∀ l, l.Pairwise (fun a b => f a ≤ f b) →
      (specInsert (fun a b => decide (f a < f b)) x l).Pairwise
        (fun a b => f a ≤ f b) := by
  intro l
  induction l with
  | nil => intro _; exact List.pairwise_singleton _ x
  | cons y ys ih =>
    intro h
    rw [List.pairwise_cons] at h
    obtain ⟨hy, hys⟩ := h
    show (if decide (f y < f x) = true then y :: specInsert _ x ys
      else x :: y :: ys).Pairwise (fun a b => f a ≤ f b)
    by_cases hb : f y < f x
    · rw [if_pos (decide_eq_true hb), List.pairwise_cons]
      constructor
      · intro z hz
        rcases List.mem_cons.mp ((specInsert_perm _ x ys).mem_iff.mp hz) with rfl | hz2
        · exact le_of_lt hb
        · exact hy z hz2
      · exact ih hys
    · rw [if_neg (fun hc => hb (of_decide_eq_true hc)), List.pairwise_cons]
      constructor
      · intro z hz
        rcases List.mem_cons.mp hz with rfl | hz2
        · exact le_of_not_lt hb
        · exact le_trans (le_of_not_lt hb) (hy z hz2)
      · exact List.pairwise_cons.mpr ⟨hy, hys⟩

theorem specSortBy_pairwise (f : α → Int) :
    ∀ l, (specSortBy (fun a b => decide (f a < f b)) l).Pairwise
      (fun a b => f a ≤ f b) := by
  intro l
  induction l with
  | nil => exact List.Pairwise.nil
  | cons x xs ih => exact specInsert_pairwise f x _ ih

theorem purePass_pairwise (f : α → Int) (rev : Bool) (l : List α) :
    (purePass f rev l).Pairwise (fun a b =>
      (if rev then -(f a) else f a) ≤ (if rev then -(f b) else f b)) := by
  cases rev with
  | false =>
    refine (specSortBy_pairwise f l).imp ?_
    intro a b h
    simpa using h
  | true =>
    show ((specSortBy _ l.reverse).reverse).Pairwise _
    refine List.pairwise_reverse.mpr ((specSortBy_pairwise f l.reverse).imp ?_)
    intro a b h
    simpa using h

/-- Numeric test on a value (decidable form of the sort-key hypothesis). -/
def isNum : JVal → Bool
  | .num _ => true
  | _ => false

theorem isNum_num (v : JVal) (h : isNum v = true) : v = .num (numOf v) := by
  cases v with
  | num z => rfl
  | null => cases h
  | bool b => cases h
  | str s => cases h
  | arr l => cases h
  | obj m => cases h

theorem keyVec_cons (k : List Char) (ks : List (List Char)) (p : β × JVal) :
    keyVec (k :: ks) p = signedKey k p :: keyVec ks p := rfl

theorem signedKey_eq_of (k : List Char) (p q : β × JVal)
    (h : numOf (pyGetattr p.2 (sortField k)) = numOf (pyGetattr q.2 (sortField k))) :
    signedKey k p = signedKey k q := by
  unfold signedKey
  rw [h]

theorem signedKey_inj (k : List Char) (p q : β × JVal)
    (h : signedKey k p = signedKey k q) :
    numOf (pyGetattr p.2 (sortField k)) = numOf (pyGetattr q.2 (sortField k)) := by
  unfold signedKey at h
  by_cases hd : sortDescend k = true
  · rw [if_pos hd, if_pos hd] at h
    omega
  · rw [if_neg hd, if_neg hd] at h
    exact h

/-- The pure image of the `_sorter` loop is a permutation, is sorted in
the lexicographic order of the signed key vectors (first listed key
dominating, `~` keys descending), and preserves the input order inside
every class of elements whose keys all agree (stability). -/
theorem pureSorter_spec (ks : List (List Char)) :
    ∀ (pairs : List (β × JVal)),
      (pureSorter ks pairs).Perm pairs ∧
      (pureSorter ks pairs).Pairwise
        (fun x y => vecLt (keyVec ks y) (keyVec ks x) = false) ∧
      (∀ P : β × JVal → Bool,
        (∀ sb ∈ ks, ∀ x y, P x = true → P y = true → signedKey sb x = signedKey sb y) →
        (pureSorter ks pairs).filter P = pairs.filter P) := by
  induction ks with
  | nil =>
    intro pairs
    refine ⟨List.Perm.refl pairs, ?_, fun P _ => rfl⟩
    refine List.pairwise_iff_forall_sublist.mpr ?_
    intro a b _
    rfl
  | cons k rest ih =>
    intro pairs
    have hfold : pureSorter (k :: rest) pairs =
        purePass (fun p => numOf (pyGetattr p.2 (sortField k))) (sortDescend k)
          (pureSorter rest pairs) := by
      show ((k :: rest).reverse.foldl _ pairs) = _
      rw [List.reverse_cons, List.foldl_append]
      rfl
    obtain ⟨hperm, hpw, hfil⟩ := ih pairs
    rw [hfold]
    have hpassperm := purePass_perm (fun p => numOf (pyGetattr p.2 (sortField k)))
      (sortDescend k) (pureSorter rest pairs)
    refine ⟨hpassperm.trans hperm, ?_, ?_⟩
    · -- sortedness in the extended lexicographic order
      have hpass := purePass_pairwise (fun p => numOf (pyGetattr p.2 (sortField k)))
        (sortDescend k) (pureSorter rest pairs)
      have hsk : (purePass (fun p => numOf (pyGetattr p.2 (sortField k)))
          (sortDescend k) (pureSorter rest pairs)).Pairwise
          (fun x y => signedKey k x ≤ signedKey k y) := by
        refine hpass.imp ?_
        intro a b h
        unfold signedKey
        by_cases hd : sortDescend k = true
        · simp only [if_pos hd] at h ⊢
          exact h
        · simp only [if_neg hd] at h ⊢
          exact h
      refine List.pairwise_iff_forall_sublist.mpr ?_
      intro x y hsub
      have hle : signedKey k x ≤ signedKey k y :=
        (List.pairwise_iff_forall_sublist.mp hsk) hsub
      rw [keyVec_cons, keyVec_cons]
      show (if signedKey k y < signedKey k x then true
        else if signedKey k x < signedKey k y then false
        else vecLt (keyVec rest y) (keyVec rest x)) = false
      rw [if_neg (by omega)]
      by_cases hlt : signedKey k x < signedKey k y
      · rw [if_pos hlt]
      · rw [if_neg hlt]
        have heq : signedKey k x = signedKey k y := by omega
        -- x and y have equal pass keys: the pass kept their relative
        -- order, so they form a sublist of the previous stage
        have hconst : ∀ a b : β × JVal,
            decide (signedKey k a = signedKey k x) = true →
            decide (signedKey k b = signedKey k x) = true →
            numOf (pyGetattr a.2 (sortField k)) = numOf (pyGetattr b.2 (sortField k)) := by
          intro a b ha hb
          exact signedKey_inj k a b ((of_decide_eq_true ha).trans
            (of_decide_eq_true hb).symm)
        have hfilpass := purePass_filter (fun p => numOf (pyGetattr p.2 (sortField k)))
          (sortDescend k) (fun z => decide (signedKey k z = signedKey k x)) hconst
          (pureSorter rest pairs)
        have hsubf : ([x, y].filter (fun z => decide (signedKey k z = signedKey k x))).Sublist
            ((purePass (fun p => numOf (pyGetattr p.2 (sortField k)))
              (sortDescend k) (pureSorter rest pairs)).filter
              (fun z => decide (signedKey k z = signedKey k x))) :=
          hsub.filter _
        rw [hfilpass] at hsubf
        have hxy : [x, y].filter (fun z => decide (signedKey k z = signedKey k x)) =
            [x, y] := by
          simp [List.filter, heq]
        rw [hxy] at hsubf
        have hsub2 : [x, y].Sublist (pureSorter rest pairs) :=
          hsubf.trans (List.filter_sublist _)
        exact (List.pairwise_iff_forall_sublist.mp hpw) hsub2
    · -- stability filters
      intro P hP
      have hconst : ∀ a b : β × JVal, P a = true → P b = true →
          numOf (pyGetattr a.2 (sortField k)) = numOf (pyGetattr b.2 (sortField k)) := by
        intro a b ha hb
        exact signedKey_inj k a b (hP k (List.mem_cons_self k rest) a b ha hb)
      rw [purePass_filter _ _ P hconst]
      exact hfil P (fun sb hsb => hP sb (List.mem_cons_of_mem k hsb))

theorem isNum_exists (ks : List (List Char)) (ps : List (β × JVal))
    (h : ∀ sb ∈ ks, ∀ p ∈ ps, isNum (pyGetattr p.2 (sortField sb)) = true) :
    ∀ sb ∈ ks, ∀ p ∈ ps, ∃ z : Int, pyGetattr p.2 (sortField sb) = .num z :=
  fun sb hsb p hp =>
    ⟨numOf (pyGetattr p.2 (sortField sb)), isNum_num _ (h sb hsb p hp)⟩

/-- C7: the sorter applies one stable sort per comma-separated key, from
the last listed key to the first, so the final order is the lexicographic
order of the listed keys with the first key dominating; a `~` prefix
sorts its key descending; and the sorted elements keep their original
index or key, which is exactly what the traversal appends to the path.
Stated for numeric sort keys (under which every performed comparison is
defined): the result is the reference stable multi-key sort `pureSorter`,
which is a permutation of the input, sorted by the signed key vectors
(`~` keys negated, so ascending everywhere), and stable (classes of
elements with equal key vectors keep the input order). -/
theorem sorter_multikey_stable (sortbys : List Char) (pairs : List (β × JVal))
    (hnum : ∀ sb ∈ splitSep ',' sortbys, ∀ p ∈ pairs,
      isNum (pyGetattr p.2 (sortField sb)) = true) :
    sorter sortbys pairs = .ok (pureSorter (splitSep ',' sortbys) pairs) ∧
    (pureSorter (splitSep ',' sortbys) pairs).Perm pairs ∧
    (pureSorter (splitSep ',' sortbys) pairs).Pairwise
      (fun x y => vecLt (keyVec (splitSep ',' sortbys) y)
        (keyVec (splitSep ',' sortbys) x) = false) ∧
    (∀ P : β × JVal → Bool,
      (∀ sb ∈ splitSep ',' sortbys, ∀ x y, P x = true → P y = true →
        signedKey sb x = signedKey sb y) →
      (pureSorter (splitSep ',' sortbys) pairs).filter P = pairs.filter P) ∧
    (∀ (go : TraceRec) (l : List JVal) (i : Nat) (path : List Char),
      (∀ sb ∈ splitSep ',' sortbys, ∀ p ∈ l.enum,
        isNum (pyGetattr p.2 (sortField sb)) = true) →
      sorterStep go (.arr l) i path ('/' :: '(' :: sortbys ++ [')']) =
        joinM ((pureSorter (splitSep ',' sortbys) l.enum).map
          (fun nv => go nv.2 (i + 1) (path ++ ';' :: natChars nv.1)))) ∧
    (∀ (go : TraceRec) (m : List (String × JVal)) (i : Nat) (path : List Char),
      (∀ sb ∈ splitSep ',' sortbys, ∀ p ∈ m,
        isNum (pyGetattr p.2 (sortField sb)) = true) →
      sorterStep go (.obj m) i path ('/' :: '(' :: sortbys ++ [')']) =
        joinM ((pureSorter (splitSep ',' sortbys) m).map
          (fun kv => go kv.2 (i + 1) (path ++ ';' :: kv.1.data)))) := by
  obtain ⟨hperm, hpw, hfil⟩ := pureSorter_spec (splitSep ',' sortbys) pairs
  refine ⟨sorter_eq_spec sortbys pairs (isNum_exists _ pairs hnum), hperm, hpw, hfil,
    ?_, ?_⟩
  · intro go l i path hla
    show (do
      let ps ← sorter (inner2 ('/' :: '(' :: sortbys ++ [')'])) l.enum
      joinM (ps.map (fun nv : Nat × JVal =>
        go nv.2 (i + 1) (path ++ ';' :: natChars nv.1)))) = _
    rw [inner2_wrap]
    rw [sorter_eq_spec sortbys l.enum (isNum_exists _ l.enum hla), ok_bind]
  · intro go m i path hma
    show (do
      let ps ← sorter (inner2 ('/' :: '(' :: sortbys ++ [')'])) m
      joinM (ps.map (fun kv : String × JVal =>
        go kv.2 (i + 1) (path ++ ';' :: kv.1.data)))) = _
    rw [inner2_wrap]
    rw [sorter_eq_spec sortbys m (isNum_exists _ m hma), ok_bind]

theorem sorter_multikey_stable_witness :
    sorter (s2l "a,~b")
      [((0 : Nat), JVal.obj [("a", .num 1), ("b", .num 1)]),
       (1, .obj [("a", .num 0), ("b", .num 5)]),
       (2, .obj [("a", .num 1), ("b", .num 9)]),
       (3, .obj [("a", .num 1), ("b", .num 9)])] =
      .ok (pureSorter (splitSep ',' (s2l "a,~b"))
        [((0 : Nat), JVal.obj [("a", .num 1), ("b", .num 1)]),
         (1, .obj [("a", .num 0), ("b", .num 5)]),
         (2, .obj [("a", .num 1), ("b", .num 9)]),
         (3, .obj [("a", .num 1), ("b", .num 9)])]) :=
  (sorter_multikey_stable (s2l "a,~b")
    [((0 : Nat), JVal.obj [("a", .num 1), ("b", .num 1)]),
     (1, .obj [("a", .num 0), ("b", .num 5)]),
     (2, .obj [("a", .num 1), ("b", .num 9)]),
     (3, .obj [("a", .num 1), ("b", .num 9)])] (by decide)).1

/-- Sanity: on the witness input the stable multi-key sort puts the
`a = 0` element first, then the two `b = 9` ties in input order, then the
`b = 1` element: first key ascending dominates, second key descending,
ties stable. -/
example :
    pureSorter (splitSep ',' (s2l "a,~b"))
      [((0 : Nat), JVal.obj [("a", .num 1), ("b", .num 1)]),
       (1, .obj [("a", .num 0), ("b", .num 5)]),
       (2, .obj [("a", .num 1), ("b", .num 9)]),
       (3, .obj [("a", .num 1), ("b", .num 9)])] =
      [(1, .obj [("a", .num 0), ("b", .num 5)]),
       (2, .obj [("a", .num 1), ("b", .num 9)]),
       (3, .obj [("a", .num 1), ("b", .num 9)]),
       (0, .obj [("a", .num 1), ("b", .num 1)])] := by decide

end JsonPath
